import Mathlib

/-!
Shallow embedding of the core of `indoor-gru-schedule-exhaustive`
(src/calculate.mjs, src/lib/tree-format.mjs) together with proofs of the
frozen claims about it.

Conventions used throughout the embedding:
* JavaScript `Number` bitwise operations work on 32-bit two's-complement
  bit patterns, with shift counts taken modulo 32.  We model such a value
  by the natural number whose binary digits are the bit pattern, so
  `1 << m` becomes `1 <<< (m % 32)` and `x | y`, `x & y`, `x ^ y` become
  `Nat.lor`, `Nat.land`, `Nat.xor` (sign plays no role in any operation
  the source performs on these masks).
* JavaScript `BigInt` masks (the per-team pattern masks) are arbitrary
  precision and are modelled by plain `Nat` bitmasks.
* A JavaScript `Set` is modelled by a duplicate-free `List` (insertion is
  a no-op when the element is present) or by a `Finset` where only
  membership and size are used; a `Map` from round index to a set of
  matchups is modelled by the total function `Nat → Finset Nat` that is
  `∅` outside the stored keys (every read in the source is
  `map.get(r) || new Set()`).
* Mutation followed by exact undo on backtrack is modelled by passing the
  updated state into the recursive call (call-by-value).
* A callback-producing enumerator is modelled as the list of the values
  it passes to its callback, in call order; the returned count is the
  length of that list.
-/

namespace Sched

/-- `N_SLOTS = (N_TEAMS * 3) / 2` (exact for the supported even team counts). -/
def nSlots (n : Nat) : Nat := n * 3 / 2

/-- `N_MATCHUPS = (N_TEAMS * (N_TEAMS - 1)) / 2`. -/
def nMatchups (n : Nat) : Nat := n * (n - 1) / 2

/-- The list of team pairs `(ti1, ti2)`, `ti1 < ti2 < n`, in the order the
source's double loop visits them; position in this list is the matchup id
(the source stores the pairs in `matchupToTeams` and the ids in
`teamsToMatchup`). -/
def matchupPairs (n : Nat) : List (Nat × Nat) :=
  (List.range n).flatMap fun t1 =>
    (List.range' (t1 + 1) (n - (t1 + 1))).map fun t2 => (t1, t2)

/-- `encodeMatchup`: the id stored for `(ti1, ti2)`; the source fills
`teamsToMatchup` at both `[ti1][ti2]` and `[ti2][ti1]`, so the lookup is
symmetric in the two teams. -/
def encodeMatchup (n ti1 ti2 : Nat) : Nat :=
  (matchupPairs n).findIdx fun p =>
    (p.1 == ti1 && p.2 == ti2) || (p.1 == ti2 && p.2 == ti1)

/-- `decodeMatchup`: the team pair stored for a matchup id. -/
def decodeMatchup (n matchupIdx : Nat) : Nat × Nat :=
  (matchupPairs n).getD matchupIdx (0, 0)

theorem mem_matchupPairs {n a b : Nat} :
    (a, b) ∈ matchupPairs n ↔ a < b ∧ b < n := by
  simp only [matchupPairs, List.mem_flatMap, List.mem_map, List.mem_range,
    List.mem_range'_1]
  constructor
  · rintro ⟨t1, ht1, t2, ⟨hle, hlt⟩, h⟩
    obtain ⟨rfl, rfl⟩ : t1 = a ∧ t2 = b := by
      exact ⟨congrArg Prod.fst h, congrArg Prod.snd h⟩
    omega
  · rintro ⟨hab, hbn⟩
    exact ⟨a, by omega, b, ⟨by omega, by omega⟩, rfl⟩

theorem matchupPairs_sortedPair {n : Nat} {p : Nat × Nat}
    (hp : p ∈ matchupPairs n) : p.1 < p.2 ∧ p.2 < n := by
  obtain ⟨a, b⟩ := p
  exact mem_matchupPairs.mp hp

theorem nodup_matchupPairs (n : Nat) : (matchupPairs n).Nodup := by
  have main : ∀ (l : List Nat), l.Nodup →
      (l.flatMap fun t1 =>
        (List.range' (t1 + 1) (n - (t1 + 1))).map fun t2 => (t1, t2)).Nodup := by
    intro l hl
    induction l with
    | nil => simp
    | cons x xs ih =>
      simp only [List.flatMap_cons, List.nodup_append]
      refine ⟨?_, ih hl.of_cons, ?_⟩
      · refine List.Nodup.map ?_ (List.nodup_range' _ _)
        intro a b h
        simpa using congrArg Prod.snd h
      · intro p hp hq
        simp only [List.mem_map] at hp
        obtain ⟨t2, _, rfl⟩ := hp
        simp only [List.mem_flatMap, List.mem_map] at hq
        obtain ⟨t1, ht1, t2', _, h⟩ := hq
        have hx : t1 = x := by simpa using congrArg Prod.fst h
        subst hx
        exact (hl.not_mem ht1).elim
  exact main (List.range n) (List.nodup_range n)

theorem length_matchupPairs (n : Nat) :
    (matchupPairs n).length = nMatchups n := by
  have h0 : (matchupPairs n).length
      = ((List.range n).map (fun t1 => n - (t1 + 1))).sum := by
    simp [matchupPairs, List.length_flatMap, Function.comp_def]
  have h1 : ((List.range n).map (fun t1 => n - (t1 + 1))).sum
      = ∑ i in Finset.range n, (n - (i + 1)) := rfl
  have h2 : ∑ i in Finset.range n, (n - (i + 1))
      = ∑ i in Finset.range n, (n - 1 - i) :=
    Finset.sum_congr rfl (fun i _ => by omega)
  rw [nMatchups, h0, h1, h2, Finset.sum_range_reflect (fun i => i) n,
    Finset.sum_range_id n]

/-- The `findIdx` predicate used by `encodeMatchup` holds for a stored pair
exactly when that pair is `(t1, t2)` up to order. -/
theorem encode_pred_iff {t1 t2 : Nat} {p : Nat × Nat} :
    ((p.1 == t1 && p.2 == t2) || (p.1 == t2 && p.2 == t1)) = true ↔
      p = (t1, t2) ∨ p = (t2, t1) := by
  obtain ⟨a, b⟩ := p
  simp only [Bool.or_eq_true, Bool.and_eq_true, beq_iff_eq, Prod.mk.injEq]

theorem getElem_encodeMatchup {n t1 t2 : Nat} (h12 : t1 < t2) (h2n : t2 < n) :
    encodeMatchup n t1 t2 < (matchupPairs n).length ∧
      (matchupPairs n).getD (encodeMatchup n t1 t2) (0, 0) = (t1, t2) := by
  have hmem : (t1, t2) ∈ matchupPairs n := mem_matchupPairs.mpr ⟨h12, h2n⟩
  have hex : ∃ p ∈ matchupPairs n,
      ((p.1 == t1 && p.2 == t2) || (p.1 == t2 && p.2 == t1)) = true :=
    ⟨(t1, t2), hmem, encode_pred_iff.mpr (Or.inl rfl)⟩
  have hlt : encodeMatchup n t1 t2 < (matchupPairs n).length :=
    List.findIdx_lt_length_of_exists hex
  refine ⟨hlt, ?_⟩
  rw [List.getD_eq_getElem _ _ hlt]
  have hp := List.findIdx_getElem (w := hlt)
  rcases encode_pred_iff.mp hp with h | h
  · exact h
  · exfalso
    have hmem2 : (t2, t1) ∈ matchupPairs n := by
      rw [← h]
      exact List.getElem_mem hlt
    have := (mem_matchupPairs.mp hmem2).1
    omega

theorem encodeMatchup_lt {n t1 t2 : Nat} (h12 : t1 < t2) (h2n : t2 < n) :
    encodeMatchup n t1 t2 < nMatchups n :=
  length_matchupPairs n ▸ (getElem_encodeMatchup h12 h2n).1

theorem decode_encode {n t1 t2 : Nat} (h12 : t1 < t2) (h2n : t2 < n) :
    decodeMatchup n (encodeMatchup n t1 t2) = (t1, t2) :=
  (getElem_encodeMatchup h12 h2n).2

theorem encodeMatchup_comm (n t1 t2 : Nat) :
    encodeMatchup n t1 t2 = encodeMatchup n t2 t1 := by
  unfold encodeMatchup
  congr 1
  funext p
  exact Bool.or_comm _ _

theorem encodeMatchup_injOn {n a b c d : Nat} (hab : a < b) (hbn : b < n)
    (hcd : c < d) (hdn : d < n)
    (h : encodeMatchup n a b = encodeMatchup n c d) : a = c ∧ b = d := by
  have h1 := decode_encode hab hbn
  have h2 := decode_encode hcd hdn
  rw [h, h2] at h1
  exact ⟨(Prod.mk.injEq _ _ _ _ ▸ h1).1.symm, (Prod.mk.injEq _ _ _ _ ▸ h1).2.symm⟩

/-- The ids are surjective onto `[0, N(N-1)/2)`: every id below `nMatchups n`
is the encoding of a valid sorted pair. -/
theorem encodeMatchup_surj {n m : Nat} (hm : m < nMatchups n) :
    ∃ t1 t2, t1 < t2 ∧ t2 < n ∧ encodeMatchup n t1 t2 = m := by
  have hm' : m < (matchupPairs n).length := by rwa [length_matchupPairs]
  have hmem : (matchupPairs n)[m] ∈ matchupPairs n := List.getElem_mem hm'
  obtain ⟨hlt, hn⟩ := matchupPairs_sortedPair hmem
  refine ⟨(matchupPairs n)[m].1, (matchupPairs n)[m].2, hlt, hn, ?_⟩
  unfold encodeMatchup
  rw [List.findIdx_eq hm']
  constructor
  · exact encode_pred_iff.mpr (Or.inl (Prod.mk.eta).symm)
  · intro j hj
    rw [Bool.eq_false_iff]
    intro hpj
    rcases encode_pred_iff.mp hpj with h | h
    · have hjm : j = m :=
        ((nodup_matchupPairs n).getElem_inj_iff).mp (h.trans Prod.mk.eta)
      omega
    · have hmemj : (matchupPairs n)[j] ∈ matchupPairs n :=
        List.getElem_mem (by omega)
      obtain ⟨hlt', _⟩ := matchupPairs_sortedPair hmemj
      rw [h] at hlt'
      simp only at hlt'
      omega

/-- C6: for every valid pair of distinct teams `(t1, t2)` with
`0 ≤ t1 < t2 < N` and `N` in the supported range,
`decodeMatchup (encodeMatchup t1 t2) = (t1, t2)`; `encodeMatchup` is
symmetric in its arguments; and the matchup ids are dense and contiguous
over `[0, N·(N-1)/2)` with no two distinct pairs sharing an id. -/
theorem claim_C6_encode_decode_roundtrip (n t1 t2 : Nat) (hn4 : 4 ≤ n)
    (hn16 : n ≤ 16) (heven : Even n) (h12 : t1 < t2) (h2n : t2 < n) :
    decodeMatchup n (encodeMatchup n t1 t2) = (t1, t2) ∧
    encodeMatchup n t1 t2 = encodeMatchup n t2 t1 ∧
    encodeMatchup n t1 t2 < nMatchups n ∧
    (∀ m, m < nMatchups n → ∃ s1 s2, s1 < s2 ∧ s2 < n ∧
      encodeMatchup n s1 s2 = m) ∧
    (∀ s1 s2, s1 < s2 → s2 < n →
      encodeMatchup n s1 s2 = encodeMatchup n t1 t2 → s1 = t1 ∧ s2 = t2) := by
  refine ⟨decode_encode h12 h2n, encodeMatchup_comm n t1 t2,
    encodeMatchup_lt h12 h2n, fun m hm => encodeMatchup_surj hm,
    fun s1 s2 hs12 hs2n h => encodeMatchup_injOn hs12 hs2n h12 h2n h⟩

/-- Witness for C6 at `N = 8`, pair `(2, 5)`. -/
theorem claim_C6_witness :
    (4 ≤ 8 ∧ 8 ≤ 16 ∧ Even 8 ∧ 2 < 5 ∧ 5 < 8) ∧
      decodeMatchup 8 (encodeMatchup 8 2 5) = (2, 5) :=
  ⟨⟨by decide, by decide, ⟨4, rfl⟩, by decide, by decide⟩,
    (claim_C6_encode_decode_roundtrip 8 2 5 (by decide) (by decide) ⟨4, rfl⟩
      (by decide) (by decide)).1⟩

/-! ## Round Tracker

`roundMatchups` is a JS `Map` from round number to the `Set` of matchup ids
already used in that round; every read in the source is
`roundMatchups.get(r) || new Set()`, so we model it as the total function
that returns `∅` for rounds the map does not store. -/

/-- `roundMatchups[roundNum] = Set of matchup indices used in that round`. -/
def RoundState : Type := Nat → Finset Nat

instance : Std.Commutative (α := Nat) (· ||| ·) := ⟨fun a b => Nat.lor_comm a b⟩

instance : Std.Associative (α := Nat) (· ||| ·) := ⟨fun a b c => Nat.lor_assoc a b c⟩

/-- `excludeMatchups |= (1 << m)` over a set of matchup ids; the JS `<<`
shift count is reduced modulo 32. -/
def excludeMaskOf (s : Finset Nat) : Nat :=
  Finset.fold (· ||| ·) 0 (fun m => 1 <<< (m % 32)) s

/-- The record returned by `getRoundConstraints`. -/
structure Constraint where
  excludeMatchups : Nat
  requiredMatchups : Finset Nat
  gamesRemainingInRound : Nat

/-- `getRoundConstraints(weekStartGame, roundMatchups)`.  (`gamesRemaining`
is natural subtraction; the source's guards `> 0` and `≥ N_SLOTS` behave
identically on the truncated value because a negative JS value fails both.) -/
def getRoundConstraints (n weekStartGame : Nat) (roundMatchups : RoundState) :
    Constraint :=
  let startRound := weekStartGame / nMatchups n
  let usedInRound := roundMatchups startRound
  let gamesRemainingInRound := nMatchups n - usedInRound.card
  let requiredMatchups :=
    if gamesRemainingInRound ≤ nSlots n ∧ gamesRemainingInRound > 0 then
      (Finset.range (nMatchups n)).filter (fun m => m ∉ usedInRound)
    else (∅ : Finset Nat)
  let excludeMatchups :=
    if gamesRemainingInRound ≥ nSlots n then excludeMaskOf usedInRound else 0
  ⟨excludeMatchups, requiredMatchups, gamesRemainingInRound⟩

/-- `updateRoundMatchups(weekNum, weekMatchups, roundMatchups,
requiredMatchups)`: the pure copy-and-update of the round map after a week
is placed.  The source's single loop that adds each matchup to one of two
distinct map keys is modelled as two folds, one per key. -/
def updateRoundMatchups (n weekNum : Nat) (weekMatchups : List Nat)
    (roundMatchups : RoundState) (requiredMatchups : Finset Nat) : RoundState :=
  let weekStartGame := weekNum * nSlots n
  let startRound := weekStartGame / nMatchups n
  let usedInStartRound := roundMatchups startRound
  let gamesRemainingInRound := nMatchups n - usedInStartRound.card
  if gamesRemainingInRound ≥ nSlots n then
    Function.update roundMatchups startRound
      (weekMatchups.foldl (fun s m => insert m s) usedInStartRound)
  else
    let rm1 := Function.update roundMatchups startRound
      (weekMatchups.foldl
        (fun s m => if m ∈ requiredMatchups then insert m s else s)
        usedInStartRound)
    Function.update rm1 (startRound + 1)
      (weekMatchups.foldl
        (fun s m => if m ∈ requiredMatchups then s else insert m s)
        (rm1 (startRound + 1)))

/-- One week of `rebuildRoundMatchups`'s loop; the accumulator is
`(roundMatchups, currentRound, usedInRound)`. -/
def rebuildStep (n : Nat) (acc : RoundState × Nat × Finset Nat)
    (week : List Nat) : RoundState × Nat × Finset Nat :=
  let rm := acc.1
  let currentRound := acc.2.1
  let usedInRound := acc.2.2
  let gamesRemainingInRound := nMatchups n - usedInRound.card
  if gamesRemainingInRound ≤ nSlots n then
    let required := (Finset.range (nMatchups n)).filter (fun m => m ∉ usedInRound)
    let used1 := week.foldl
      (fun s m => if m ∈ required then insert m s else s) usedInRound
    if used1.card = nMatchups n then
      (Function.update rm currentRound used1, currentRound + 1,
        week.foldl (fun s m => if m ∈ required then s else insert m s)
          (∅ : Finset Nat))
    else
      (rm, currentRound,
        week.foldl (fun s m => if m ∈ required then s else insert m s) used1)
  else
    (rm, currentRound, week.foldl (fun s m => insert m s) usedInRound)

/-- `rebuildRoundMatchups(path)`: rebuild round tracking from scratch from a
path of weeks. -/
def rebuildRoundMatchups (n : Nat) (path : List (List Nat)) : RoundState :=
  let st := path.foldl (rebuildStep n) (fun _ => (∅ : Finset Nat), 0, ∅)
  if st.2.2.card > 0 then Function.update st.1 st.2.1 st.2.2 else st.1

/-- One advance of the incrementally maintained RoundState: the
`requiredMatchups` handed to `updateRoundMatchups` are the ones
`getRoundConstraints` computes for this week on the current state (this is
exactly what `enumerateFromPath` does while searching). -/
def advanceWeek (n weekNum : Nat) (rm : RoundState) (week : List Nat) :
    RoundState :=
  updateRoundMatchups n weekNum week rm
    (getRoundConstraints n (weekNum * nSlots n) rm).requiredMatchups

/-- Fold `advanceWeek` over the remaining weeks starting at `weekNum`. -/
def replayFrom (n weekNum : Nat) (rm : RoundState) :
    List (List Nat) → RoundState
  | [] => rm
  | week :: rest => replayFrom n (weekNum + 1) (advanceWeek n weekNum rm week) rest

/-- The incrementally maintained RoundState of a whole path: start from the
empty state at week 0 and fold `advanceWeek` over the weeks in order. -/
def replayRoundMatchups (n : Nat) (path : List (List Nat)) : RoundState :=
  replayFrom n 0 (fun _ => (∅ : Finset Nat)) path

theorem foldl_insert_if (p : Nat → Prop) [DecidablePred p] (l : List Nat)
    (s0 : Finset Nat) :
    l.foldl (fun s m => if p m then insert m s else s) s0
      = s0 ∪ (l.filter (fun m => decide (p m))).toFinset := by
  induction l generalizing s0 with
  | nil => simp
  | cons x xs ih =>
    by_cases hx : p x
    · have hfilter : List.filter (fun m => decide (p m)) (x :: xs)
          = x :: List.filter (fun m => decide (p m)) xs := by
        simp [hx]
      rw [List.foldl_cons, if_pos hx, ih, hfilter, List.toFinset_cons]
      ext a
      simp only [Finset.mem_union, Finset.mem_insert, List.mem_toFinset]
      tauto
    · have hfilter : List.filter (fun m => decide (p m)) (x :: xs)
          = List.filter (fun m => decide (p m)) xs := by
        simp [hx]
      rw [List.foldl_cons, if_neg hx, ih, hfilter]

theorem foldl_insert_eq (l : List Nat) (s0 : Finset Nat) :
    l.foldl (fun s m => insert m s) s0 = s0 ∪ l.toFinset := by
  induction l generalizing s0 with
  | nil => simp
  | cons x xs ih =>
    simp only [List.foldl_cons, ih, List.toFinset_cons]
    ext a
    simp only [Finset.mem_union, Finset.mem_insert, List.mem_toFinset]
    tauto

theorem testBit_excludeMaskOf {s : Finset Nat} {k : Nat} :
    (excludeMaskOf s).testBit k = true ↔ ∃ m ∈ s, m % 32 = k := by
  classical
  induction s using Finset.induction with
  | empty => simp [excludeMaskOf, Nat.zero_testBit]
  | @insert x s hx ih =>
    have hfold : excludeMaskOf (insert x s)
        = (1 <<< (x % 32)) ||| excludeMaskOf s := by
      simp [excludeMaskOf, Finset.fold_insert hx]
    rw [hfold, Nat.testBit_lor, Bool.or_eq_true, Nat.one_shiftLeft,
      Nat.testBit_two_pow, ih]
    simp only [decide_eq_true_eq, Finset.mem_insert]
    constructor
    · rintro (h | ⟨m, hm, rfl⟩)
      · exact ⟨x, Or.inl rfl, h⟩
      · exact ⟨m, Or.inr hm, rfl⟩
    · rintro ⟨m, hm | hm, rfl⟩
      · exact Or.inl (by rw [hm])
      · exact Or.inr ⟨m, hm, rfl⟩

/-- C4: when the week straddles a round boundary (fewer than `S` games
remain in the current round at entry), `updateRoundMatchups` assigns exactly
the week's matchups that are in `required` to the current round and all
other matchups of the week to the next round, leaves every other round
unchanged, and its result is invariant under every permutation of the
week's slots (it depends only on the set of the week's matchups). -/
theorem claim_C4_advance_straddle_partition (n weekNum : Nat)
    (rm : RoundState) (week : List Nat) (required : Finset Nat)
    (hstraddle :
      nMatchups n - (rm (weekNum * nSlots n / nMatchups n)).card < nSlots n) :
    (updateRoundMatchups n weekNum week rm required
        (weekNum * nSlots n / nMatchups n)
      = rm (weekNum * nSlots n / nMatchups n)
          ∪ (week.filter (fun m => decide (m ∈ required))).toFinset) ∧
    (updateRoundMatchups n weekNum week rm required
        (weekNum * nSlots n / nMatchups n + 1)
      = rm (weekNum * nSlots n / nMatchups n + 1)
          ∪ (week.filter (fun m => decide (m ∉ required))).toFinset) ∧
    (∀ r, r ≠ weekNum * nSlots n / nMatchups n →
      r ≠ weekNum * nSlots n / nMatchups n + 1 →
      updateRoundMatchups n weekNum week rm required r = rm r) ∧
    (∀ week', week'.Perm week →
      updateRoundMatchups n weekNum week' rm required
        = updateRoundMatchups n weekNum week rm required) := by
  have hnot : ¬ nMatchups n - (rm (weekNum * nSlots n / nMatchups n)).card
      ≥ nSlots n := by omega
  refine ⟨?_, ?_, ?_, ?_⟩
  · simp only [updateRoundMatchups, if_neg hnot]
    rw [Function.update_noteq (by omega), Function.update_same]
    rw [foldl_insert_if (fun m => m ∈ required)]
  · simp only [updateRoundMatchups, if_neg hnot]
    rw [Function.update_same]
    rw [Function.update_noteq (by omega)]
    have : (fun (s : Finset Nat) (m : Nat) =>
        if m ∈ required then s else insert m s)
        = fun s m => if m ∉ required then insert m s else s := by
      funext s m
      by_cases hm : m ∈ required <;> simp [hm]
    rw [this, foldl_insert_if (fun m => m ∉ required)]
  · intro r hr1 hr2
    simp only [updateRoundMatchups, if_neg hnot]
    rw [Function.update_noteq hr2, Function.update_noteq hr1]
  · intro week' hperm
    funext r
    simp only [updateRoundMatchups, if_neg hnot]
    rw [foldl_insert_if (fun m => m ∈ required),
      foldl_insert_if (fun m => m ∈ required)]
    have hcongr : (fun (s : Finset Nat) (m : Nat) =>
        if m ∈ required then s else insert m s)
        = fun s m => if m ∉ required then insert m s else s := by
      funext s m
      by_cases hm : m ∈ required <;> simp [hm]
    rw [hcongr, foldl_insert_if (fun m => m ∉ required),
      foldl_insert_if (fun m => m ∉ required)]
    rw [List.toFinset_eq_of_perm _ _ (hperm.filter (fun m => decide (m ∈ required))),
      List.toFinset_eq_of_perm _ _ (hperm.filter (fun m => decide (m ∉ required)))]

/-- C3 (code-bug evaluation): for `N = 10` teams (45 matchups, 15 slots)
with `used = {32}` in round 0 and `remaining = 44 ≥ S`, the JS shift
`1 << 32` wraps to bit 0, so the computed exclude mask is `1`: the
constraint excludes matchup 0 — which is not in `used` — and is unable to
represent "exclude exactly matchup 32"; the claim's "exclude set equal to
used" fails even though `remaining ≥ S`. -/
theorem claim_C3_exclude_mask_bug_eval :
    (getRoundConstraints 10 15
        (fun r => if r = 0 then ({32} : Finset Nat) else ∅)).excludeMatchups = 1 ∧
    Nat.testBit (getRoundConstraints 10 15
        (fun r => if r = 0 then ({32} : Finset Nat) else ∅)).excludeMatchups
        (0 % 32) = true ∧
    (0 : Nat) ∉ ({32} : Finset Nat) ∧
    nMatchups 10 - ({32} : Finset Nat).card ≥ nSlots 10 := by
  refine ⟨?_, ?_, by decide, by decide⟩
  · decide
  · decide

/-- Witness for C4: `N = 6`, week 1, seven matchups already used in round 0
(eight remain, fewer than the nine slots), `required = {7, 8}`. -/
theorem claim_C4_witness :
    (nMatchups 6 - ((fun r => if r = 0 then Finset.range 7 else ∅ :
        RoundState) (1 * nSlots 6 / nMatchups 6)).card < nSlots 6) ∧
    updateRoundMatchups 6 1 [7, 0, 8]
        (fun r => if r = 0 then Finset.range 7 else ∅) ({7, 8} : Finset Nat)
        (1 * nSlots 6 / nMatchups 6)
      = (fun r => if r = 0 then Finset.range 7 else ∅ : RoundState)
          (1 * nSlots 6 / nMatchups 6)
        ∪ ([7, 0, 8].filter (fun m => decide (m ∈ ({7, 8} : Finset Nat)))).toFinset :=
  ⟨by decide,
    (claim_C4_advance_straddle_partition 6 1
      (fun r => if r = 0 then Finset.range 7 else ∅) [7, 0, 8]
      ({7, 8} : Finset Nat) (by decide)).1⟩

/-! ## Week Enumerator

`enumerateSchedules` does a depth-first backtracking search over the
`N_SLOTS` slots of one week.  The JS version mutates per-team arrays and
undoes every mutation on backtrack; the embedding passes the updated state
into the recursive call instead.  The list returned below is the sequence
of schedules handed to `onSchedule`, in call order (the JS return value is
its length). -/

def SHAPES_4 : List (List Nat) := [[0, 1, 3], [0, 2, 3]]

def SHAPES_5 : List (List Nat) := [[0, 1, 4], [0, 2, 4], [0, 3, 4]]

/-- `buildPatterns`: every base shape shifted across all valid starting
offsets (`nSlots + 1 - span` is 0 when the shape does not fit, matching the
JS loop that then runs zero times). -/
def buildPatterns (shapes : List (List Nat)) (nSlots : Nat) : List (List Nat) :=
  shapes.flatMap fun s =>
    let span := s.getD 2 0 + 1
    (List.range (nSlots + 1 - span)).map fun start =>
      [s.getD 0 0 + start, s.getD 1 0 + start, s.getD 2 0 + start]

def PATTERNS (n : Nat) : List (List Nat) :=
  buildPatterns (SHAPES_4 ++ SHAPES_5) (nSlots n)

def nPatterns (n : Nat) : Nat := (PATTERNS n).length

/-- `slotMasks[slot]`: BigInt bitmask of the patterns containing `slot`. -/
def slotMask (n slot : Nat) : Nat :=
  (List.range (nPatterns n)).foldr
    (fun pi mask =>
      if slot ∈ (PATTERNS n).getD pi [] then mask ||| (1 <<< pi) else mask) 0

def allPatternsMask (n : Nat) : Nat := (1 <<< nPatterns n) - 1

/-- `new Set(…).add`: a JS set insertion, as a duplicate-free list. -/
def setAdd (x : Nat) (l : List Nat) : List Nat := if x ∈ l then l else x :: l

/-- The `requiredOpponents` table: for each required matchup, each of its
teams records the other as a still-required opponent. -/
def buildRequiredOpponents (n : Nat) (requiredMatchups : List Nat) :
    Nat → List Nat :=
  requiredMatchups.foldl
    (fun ro m =>
      let t1 := (decodeMatchup n m).1
      let t2 := (decodeMatchup n m).2
      let ro1 := Function.update ro t1 (setAdd t2 (ro t1))
      Function.update ro1 t2 (setAdd t1 (ro1 t2)))
    (fun _ => [])

/-- The mutable state of `enumerateSchedules`'s search (frame copy). -/
structure SearchState where
  games : List Nat
  slotCounts : Nat → Nat
  validMasks : Nat → Nat
  usedMatchups : Nat
  requiredOpponents : Nat → List Nat

/-- All unordered candidate pairs `(candidates[i], candidates[j])`, `i < j`,
in the two nested loops' order. -/
def pairsOf : List Nat → List (Nat × Nat)
  | [] => []
  | x :: xs => (xs.map fun y => (x, y)) ++ pairsOf xs

/-- The mutations applied to the search state when the pair
`(ti1, ti2)` is placed in the current slot (`sm` is the slot's
pattern-mask): `games[slot] = matchup`, both slot counts incremented, both
pattern masks intersected with `sm`, the matchup's bit set in
`usedMatchups`, each team removed from the other's required-opponent set.
The JS mutates its arrays in place and undoes all of it on backtrack; here
the frame copy is handed to the recursive call. -/
def placed (n : Nat) (st : SearchState) (sm ti1 ti2 : Nat) : SearchState :=
  let matchup := encodeMatchup n ti1 ti2
  let sc1 := Function.update st.slotCounts ti1 (st.slotCounts ti1 + 1)
  let sc2 := Function.update sc1 ti2 (sc1 ti2 + 1)
  let vm1 := Function.update st.validMasks ti1 (st.validMasks ti1 &&& sm)
  let vm2 := Function.update vm1 ti2 (vm1 ti2 &&& sm)
  let ro1 := Function.update st.requiredOpponents ti1
    ((st.requiredOpponents ti1).erase ti2)
  let ro2 := Function.update ro1 ti2 ((ro1 ti2).erase ti1)
  { games := st.games ++ [matchup]
    slotCounts := sc2
    validMasks := vm2
    usedMatchups := st.usedMatchups ||| (1 <<< (matchup % 32))
    requiredOpponents := ro2 }

/-- The `slot === N_SLOTS` acceptance: the week is emitted only if every
team's required-opponent set has been emptied. -/
def acceptWeek (n : Nat) (st : SearchState) : List (List Nat) :=
  if (List.range n).all (fun ti => (st.requiredOpponents ti).isEmpty) then
    [st.games]
  else []

/-- The recursive `backtrack(slot)`.  `fuel` is the number of slots still to
fill (`slot + fuel = N_SLOTS` at every call), making the recursion
structural; the fuel-exhausted branch is unreachable at the call sites.
`needed / 2 <= remaining` is JS float division, i.e.
`needed ≤ 2 * remaining`. -/
def backtrack (n excludeMatchups : Nat) : Nat → Nat → SearchState → List (List Nat)
  | 0, slot, st => if slot = nSlots n then acceptWeek n st else []
  | fuel + 1, slot, st =>
    if slot = nSlots n then acceptWeek n st
    else if ((List.range n).filter fun ti =>
        decide (st.slotCounts ti < 3 ∧
          st.validMasks ti &&& slotMask n slot ≠ 0)).length < 2 then []
    else
      (pairsOf ((List.range n).filter fun ti =>
          decide (st.slotCounts ti < 3 ∧
            st.validMasks ti &&& slotMask n slot ≠ 0))).flatMap fun p =>
        if st.usedMatchups.testBit (encodeMatchup n p.1 p.2 % 32)
            || excludeMatchups.testBit (encodeMatchup n p.1 p.2 % 32) then []
        else if (placed n st (slotMask n slot) p.1 p.2).validMasks p.1 ≠ 0 ∧
            (placed n st (slotMask n slot) p.1 p.2).validMasks p.2 ≠ 0 ∧
            (∀ ti ∈ List.range n,
              (placed n st (slotMask n slot) p.1 p.2).slotCounts ti < 3 →
              (placed n st (slotMask n slot) p.1 p.2).validMasks ti ≠ 0) ∧
            (∀ ti ∈ List.range n,
              ((placed n st (slotMask n slot) p.1 p.2).requiredOpponents ti).length
                ≤ 3 - (placed n st (slotMask n slot) p.1 p.2).slotCounts ti) then
          if ((List.range n).map fun ti =>
              3 - (placed n st (slotMask n slot) p.1 p.2).slotCounts ti).sum
              ≤ 2 * (nSlots n - slot - 1) then
            backtrack n excludeMatchups fuel (slot + 1)
              (placed n st (slotMask n slot) p.1 p.2)
          else []
        else []

/-- The patterns containing slot 0, for the `firstGame` seeding mode. -/
def patternsWithSlot0 (n : Nat) : List Nat :=
  (List.range (nPatterns n)).filter fun pi =>
    decide (0 ∈ (PATTERNS n).getD pi [])

/-- The number of slots two patterns share (the JS intersects the two
patterns as sets; pattern entries are distinct, so list counting agrees). -/
def sharedSlotCount (n pa pb : Nat) : Nat :=
  (((PATTERNS n).getD pa []).filter fun s =>
    decide (s ∈ (PATTERNS n).getD pb [])).length

/-- `enumerateSchedules(options)`: the list of schedules passed to
`onSchedule`.  `excludeMatchups` is the JS `Number` bitmask as handed in;
`requiredMatchups` is an enumeration of the JS `Set`;
`firstGame` is the optional fixed slot-0 pair. -/
def enumerateSchedules (n excludeMatchups : Nat) (requiredMatchups : List Nat)
    (firstGame : Option (Nat × Nat)) : List (List Nat) :=
  let reqOpp := buildRequiredOpponents n requiredMatchups
  match firstGame with
  | some (ti1, ti2) =>
      let matchup := encodeMatchup n ti1 ti2
      (patternsWithSlot0 n).flatMap fun pa =>
        (patternsWithSlot0 n).flatMap fun pb =>
          if sharedSlotCount n pa pb ≠ 1 then []
          else
            backtrack n excludeMatchups (nSlots n - 1) 1
              { games := [matchup]
                slotCounts := Function.update
                  (Function.update (fun _ => 0) ti1 1) ti2 1
                validMasks := Function.update
                  (Function.update (fun _ => allPatternsMask n) ti1 (1 <<< pa))
                  ti2 (1 <<< pb)
                usedMatchups := 1 <<< (matchup % 32)
                requiredOpponents := reqOpp }
  | none =>
      backtrack n excludeMatchups (nSlots n) 0
        { games := []
          slotCounts := fun _ => 0
          validMasks := fun _ => allPatternsMask n
          usedMatchups := 0
          requiredOpponents := reqOpp }

/-- `playsIn n ti m`: team `ti` is one of the two teams of matchup `m`. -/
def playsIn (n ti m : Nat) : Prop :=
  ti = (decodeMatchup n m).1 ∨ ti = (decodeMatchup n m).2

instance (n ti m : Nat) : Decidable (playsIn n ti m) := by
  unfold playsIn
  infer_instance

/-- The slots of a week in which team `ti` plays. -/
def teamSlots (n : Nat) (sched : List Nat) (ti : Nat) : List Nat :=
  (List.range sched.length).filter fun s => decide (playsIn n ti (sched.getD s 0))

/-- `last − first + 1` over a (sorted) list of slots. -/
def slotSpan (ts : List Nat) : Nat := ts.getLast?.getD 0 + 1 - ts.headI

theorem teamSlots_append (n : Nat) (gs : List Nat) (m ti : Nat) :
    teamSlots n (gs ++ [m]) ti
      = teamSlots n gs ti ++ (if playsIn n ti m then [gs.length] else []) := by
  unfold teamSlots
  rw [List.length_append, List.length_singleton, List.range_succ,
    List.filter_append]
  congr 1
  · apply List.filter_congr
    intro s hs
    rw [List.getD_append _ _ _ _ (List.mem_range.mp hs)]
  · have hget : (gs ++ [m]).getD gs.length 0 = m := by
      rw [List.getD_append_right _ _ _ _ (Nat.le_refl _), Nat.sub_self]
      rfl
    by_cases h : playsIn n ti m
    · rw [if_pos h]
      simp [hget, h]
    · rw [if_neg h]
      simp [hget, h]

theorem teamSlots_length (n : Nat) (gs : List Nat) (ti : Nat) :
    (teamSlots n gs ti).length
      = gs.countP (fun m => decide (playsIn n ti m)) := by
  induction gs using List.reverseRecOn with
  | nil => rfl
  | append_singleton gs m ih =>
    rw [teamSlots_append, List.length_append, ih, List.countP_append]
    by_cases h : playsIn n ti m <;> simp [h, List.countP_cons]

theorem teamSlots_sorted (n : Nat) (gs : List Nat) (ti : Nat) :
    (teamSlots n gs ti).Pairwise (· < ·) :=
  List.Pairwise.filter _ (List.pairwise_lt_range _)

theorem teamSlots_lt_length {n : Nat} {gs : List Nat} {ti s : Nat}
    (h : s ∈ teamSlots n gs ti) : s < gs.length :=
  List.mem_range.mp (List.mem_filter.mp h).1

theorem playsIn_encode {n t1 t2 ti : Nat} (h12 : t1 < t2) (h2n : t2 < n) :
    playsIn n ti (encodeMatchup n t1 t2) ↔ ti = t1 ∨ ti = t2 := by
  unfold playsIn
  rw [decode_encode h12 h2n]

theorem sum_countP_playsIn (n : Nat) (gs : List Nat)
    (hval : ∀ m ∈ gs, ∃ t1 t2, t1 < t2 ∧ t2 < n ∧ m = encodeMatchup n t1 t2) :
    ∑ ti in Finset.range n, gs.countP (fun m => decide (playsIn n ti m))
      = 2 * gs.length := by
  induction gs with
  | nil => simp
  | cons m gs ih =>
    obtain ⟨t1, t2, h12, h2n, hm⟩ := hval m (List.mem_cons_self _ _)
    subst hm
    have hsplit : ∀ ti : Nat,
        (encodeMatchup n t1 t2 :: gs).countP (fun m' => decide (playsIn n ti m'))
          = gs.countP (fun m' => decide (playsIn n ti m'))
            + if ti = t1 ∨ ti = t2 then 1 else 0 := by
      intro ti
      rw [List.countP_cons]
      congr 1
      by_cases h : ti = t1 ∨ ti = t2
      · rw [if_pos h,
          if_pos (decide_eq_true ((playsIn_encode h12 h2n).mpr h))]
      · rw [if_neg h, if_neg]
        intro hc
        exact h ((playsIn_encode h12 h2n).mp (of_decide_eq_true hc))
    calc ∑ ti in Finset.range n,
          (encodeMatchup n t1 t2 :: gs).countP
            (fun m' => decide (playsIn n ti m'))
        = ∑ ti in Finset.range n,
            (gs.countP (fun m' => decide (playsIn n ti m'))
              + if ti = t1 ∨ ti = t2 then 1 else 0) :=
          Finset.sum_congr rfl (fun ti _ => hsplit ti)
      _ = (∑ ti in Finset.range n,
            gs.countP (fun m' => decide (playsIn n ti m')))
          + ∑ ti in Finset.range n, (if ti = t1 ∨ ti = t2 then 1 else 0) :=
          Finset.sum_add_distrib
      _ = 2 * gs.length + 2 := by
          rw [ih (fun m' hm' => hval m' (List.mem_cons_of_mem _ hm'))]
          congr 1
          have hboole : ∑ ti in Finset.range n,
              (if ti = t1 ∨ ti = t2 then 1 else 0)
              = ((Finset.range n).filter (fun ti => ti = t1 ∨ ti = t2)).card := by
            rw [Finset.sum_boole]
            exact Nat.cast_id _
          rw [hboole]
          have hfe : (Finset.range n).filter (fun ti => ti = t1 ∨ ti = t2)
              = {t1, t2} := by
            ext ti
            simp only [Finset.mem_filter, Finset.mem_range, Finset.mem_insert,
              Finset.mem_singleton]
            constructor
            · rintro ⟨_, h⟩
              exact h
            · rintro (rfl | rfl)
              · exact ⟨by omega, Or.inl rfl⟩
              · exact ⟨h2n, Or.inr rfl⟩
          rw [hfe, Finset.card_insert_of_not_mem (by simp; omega),
            Finset.card_singleton]
      _ = 2 * (encodeMatchup n t1 t2 :: gs).length := by
          rw [List.length_cons]
          ring

theorem counts_all_three {n : Nat} (f : Nat → Nat) (hle : ∀ i, i < n → f i ≤ 3)
    (hsum : ∑ i in Finset.range n, f i = 3 * n) :
    ∀ i, i < n → f i = 3 := by
  intro i hi
  by_contra hne
  have hlt : f i < 3 := by
    have := hle i hi
    omega
  have hstrict : ∑ j in Finset.range n, f j
      < ∑ _j in Finset.range n, 3 :=
    Finset.sum_lt_sum (fun j hj => hle j (Finset.mem_range.mp hj))
      ⟨i, Finset.mem_range.mpr hi, hlt⟩
  rw [Finset.sum_const, Finset.card_range, smul_eq_mul] at hstrict
  omega

theorem testBit_foldr_maskOr (n slot pi : Nat) (l : List Nat) :
    ((l.foldr
      (fun q mask =>
        if slot ∈ (PATTERNS n).getD q [] then mask ||| (1 <<< q) else mask)
      0).testBit pi) = true
      ↔ pi ∈ l ∧ slot ∈ (PATTERNS n).getD pi [] := by
  induction l with
  | nil => simp [Nat.zero_testBit]
  | cons x xs ih =>
    rw [List.foldr_cons]
    by_cases hx : slot ∈ (PATTERNS n).getD x []
    · rw [if_pos hx, Nat.testBit_lor, Bool.or_eq_true, ih]
      have hbit : ((1 <<< x : Nat).testBit pi = true) ↔ x = pi := by
        rw [Nat.one_shiftLeft, Nat.testBit_two_pow]
        simp
      rw [hbit]
      constructor
      · rintro (⟨hpi, hslot⟩ | hxeq)
        · exact ⟨List.mem_cons_of_mem _ hpi, hslot⟩
        · cases hxeq
          exact ⟨List.mem_cons_self _ _, hx⟩
      · rintro ⟨hmem, hslot⟩
        rcases List.mem_cons.mp hmem with h | h
        · exact Or.inr h.symm
        · exact Or.inl ⟨h, hslot⟩
    · rw [if_neg hx, ih]
      constructor
      · rintro ⟨hpi, hslot⟩
        exact ⟨List.mem_cons_of_mem _ hpi, hslot⟩
      · rintro ⟨hmem, hslot⟩
        rcases List.mem_cons.mp hmem with h | h
        · rw [h] at hslot
          exact absurd hslot hx
        · exact ⟨h, hslot⟩

theorem testBit_slotMask {n slot pi : Nat} :
    (slotMask n slot).testBit pi = true ↔
      pi < nPatterns n ∧ slot ∈ (PATTERNS n).getD pi [] := by
  rw [slotMask, testBit_foldr_maskOr, List.mem_range]

theorem testBit_allPatternsMask {n pi : Nat} :
    (allPatternsMask n).testBit pi = true ↔ pi < nPatterns n := by
  rw [allPatternsMask, Nat.one_shiftLeft, Nat.testBit_two_pow_sub_one]
  simp

theorem pairsOf_mem {l : List Nat} (hl : l.Pairwise (· < ·)) {p : Nat × Nat}
    (hp : p ∈ pairsOf l) : p.1 ∈ l ∧ p.2 ∈ l ∧ p.1 < p.2 := by
  induction l with
  | nil => cases hp
  | cons x xs ih =>
    rw [pairsOf] at hp
    rcases List.mem_append.mp hp with h | h
    · obtain ⟨y, hy, rfl⟩ := List.mem_map.mp h
      exact ⟨(List.mem_cons_self _ _), List.mem_cons_of_mem _ hy,
        (List.pairwise_cons.mp hl).1 y hy⟩
    · obtain ⟨h1, h2, h3⟩ := ih (List.pairwise_cons.mp hl).2 h
      exact ⟨List.mem_cons_of_mem _ h1, List.mem_cons_of_mem _ h2, h3⟩

/-- Every pattern is one of the five base shapes shifted by some offset. -/
theorem mem_PATTERNS {n : Nat} {p : List Nat} (hp : p ∈ PATTERNS n) :
    ∃ k, p = [k, k + 1, k + 3] ∨ p = [k, k + 2, k + 3] ∨
      p = [k, k + 1, k + 4] ∨ p = [k, k + 2, k + 4] ∨ p = [k, k + 3, k + 4] := by
  unfold PATTERNS buildPatterns SHAPES_4 SHAPES_5 at hp
  simp only [List.cons_append, List.nil_append, List.mem_flatMap,
    List.mem_map, List.mem_range, List.mem_cons, List.not_mem_nil,
    or_false] at hp
  obtain ⟨s, hs, start, _, rfl⟩ := hp
  rcases hs with rfl | rfl | rfl | rfl | rfl <;>
    exact ⟨start, by simp [Nat.add_comm]⟩

theorem sorted_three_eq {ts P : List Nat} (hts : ts.Pairwise (· < ·))
    (hP : P.Pairwise (· < ·)) (hlen : ts.length = 3) (hPlen : P.length = 3)
    (hsub : ∀ s ∈ ts, s ∈ P) : ts = P := by
  obtain ⟨a, b, c, rfl⟩ := List.length_eq_three.mp hlen
  obtain ⟨d, e, f, rfl⟩ := List.length_eq_three.mp hPlen
  have hab : a < b := List.rel_of_pairwise_cons hts (List.mem_cons_self _ _)
  have hac : a < c :=
    List.rel_of_pairwise_cons hts (List.mem_cons_of_mem _ (List.mem_cons_self _ _))
  have hbc : b < c :=
    List.rel_of_pairwise_cons (List.pairwise_cons.mp hts).2 (List.mem_cons_self _ _)
  have hde : d < e := List.rel_of_pairwise_cons hP (List.mem_cons_self _ _)
  have hdf : d < f :=
    List.rel_of_pairwise_cons hP (List.mem_cons_of_mem _ (List.mem_cons_self _ _))
  have hef : e < f :=
    List.rel_of_pairwise_cons (List.pairwise_cons.mp hP).2 (List.mem_cons_self _ _)
  have ha := hsub a (List.mem_cons_self _ _)
  have hb := hsub b (List.mem_cons_of_mem _ (List.mem_cons_self _ _))
  have hc := hsub c
    (List.mem_cons_of_mem _ (List.mem_cons_of_mem _ (List.mem_cons_self _ _)))
  simp only [List.mem_cons, List.not_mem_nil, or_false] at ha hb hc
  have : a = d ∧ b = e ∧ c = f := by
    rcases ha with rfl | rfl | rfl <;> rcases hb with rfl | rfl | rfl <;>
      rcases hc with rfl | rfl | rfl <;> omega
  rw [this.1, this.2.1, this.2.2]

theorem update2_apply {α : Sort _} (f : Nat → α) (a b : Nat) (x y : α)
    (ti : Nat) :
    Function.update (Function.update f a x) b y ti
      = if ti = b then y else if ti = a then x else f ti := by
  by_cases hb : ti = b
  · subst hb
    rw [Function.update_same, if_pos rfl]
  · rw [Function.update_noteq hb, Function.update_apply, if_neg hb]

theorem placed_games (n : Nat) (st : SearchState) (sm ti1 ti2 : Nat) :
    (placed n st sm ti1 ti2).games
      = st.games ++ [encodeMatchup n ti1 ti2] := rfl

theorem placed_used (n : Nat) (st : SearchState) (sm ti1 ti2 : Nat) :
    (placed n st sm ti1 ti2).usedMatchups
      = st.usedMatchups ||| (1 <<< (encodeMatchup n ti1 ti2 % 32)) := rfl

theorem placed_slotCounts (n : Nat) (st : SearchState) (sm ti1 ti2 : Nat)
    (hne : ti1 ≠ ti2) (ti : Nat) :
    (placed n st sm ti1 ti2).slotCounts ti
      = if ti = ti2 then st.slotCounts ti2 + 1
        else if ti = ti1 then st.slotCounts ti1 + 1
        else st.slotCounts ti := by
  show Function.update (Function.update st.slotCounts ti1 _) ti2 _ ti = _
  rw [update2_apply]
  rw [Function.update_noteq (Ne.symm hne)]

theorem placed_validMasks (n : Nat) (st : SearchState) (sm ti1 ti2 : Nat)
    (hne : ti1 ≠ ti2) (ti : Nat) :
    (placed n st sm ti1 ti2).validMasks ti
      = if ti = ti2 then st.validMasks ti2 &&& sm
        else if ti = ti1 then st.validMasks ti1 &&& sm
        else st.validMasks ti := by
  show Function.update (Function.update st.validMasks ti1 _) ti2 _ ti = _
  rw [update2_apply]
  rw [Function.update_noteq (Ne.symm hne)]

theorem placed_requiredOpponents (n : Nat) (st : SearchState)
    (sm ti1 ti2 : Nat) (hne : ti1 ≠ ti2) (ti : Nat) :
    (placed n st sm ti1 ti2).requiredOpponents ti
      = if ti = ti2 then (st.requiredOpponents ti2).erase ti1
        else if ti = ti1 then (st.requiredOpponents ti1).erase ti2
        else st.requiredOpponents ti := by
  show Function.update (Function.update st.requiredOpponents ti1 _) ti2 _ ti = _
  rw [update2_apply]
  rw [Function.update_noteq (Ne.symm hne)]

/-- The coherence invariant tying `SearchState`'s incrementally maintained
fields to its `games` prefix.  It holds at every `backtrack` call the
search makes. -/
structure SearchInv (n excludeMatchups : Nat) (required : List Nat)
    (st : SearchState) : Prop where
  games_valid : ∀ m ∈ st.games,
    ∃ t1 t2, t1 < t2 ∧ t2 < n ∧ m = encodeMatchup n t1 t2
  nodup : st.games.Nodup
  used_bits : ∀ m ∈ st.games, st.usedMatchups.testBit (m % 32) = true
  counts : ∀ ti, st.slotCounts ti
    = st.games.countP (fun m => decide (playsIn n ti m))
  counts_le : ∀ ti, st.slotCounts ti ≤ 3
  masks_sub : ∀ ti pi, (st.validMasks ti).testBit pi = true →
    pi < nPatterns n ∧ ∀ s ∈ teamSlots n st.games ti, s ∈ (PATTERNS n).getD pi []
  masks_ne : ∀ ti, ti < n → st.validMasks ti ≠ 0
  req_inv : ∀ m ∈ required, m < nMatchups n → m ∉ st.games →
    (decodeMatchup n m).2 ∈ st.requiredOpponents (decodeMatchup n m).1

/-- Everything the claims assert about a schedule the enumerator outputs
under constraints `(excludeMatchups, required)`. -/
def ValidWeek (n : Nat) (required : List Nat) (sched : List Nat) : Prop :=
  sched.length = nSlots n ∧ sched.Nodup ∧
  (∀ m ∈ sched, ∃ t1 t2, t1 < t2 ∧ t2 < n ∧ m = encodeMatchup n t1 t2) ∧
  (∀ m ∈ required, m < nMatchups n → m ∈ sched) ∧
  (∀ ti, ti < n → (teamSlots n sched ti).length = 3 ∧
    ∃ pi, pi < nPatterns n ∧
      ∀ s ∈ teamSlots n sched ti, s ∈ (PATTERNS n).getD pi [])

/-- Soundness of the `slot == N_SLOTS` acceptance check: a full state
satisfying the invariant whose required-opponent sets are all empty is a
valid week. -/
theorem accept_sound {n excludeMatchups : Nat} {required : List Nat}
    (heven : Even n) {st : SearchState}
    (hlen : st.games.length = nSlots n)
    (hinv : SearchInv n excludeMatchups required st)
    (hacc : ((List.range n).all
      (fun ti => (st.requiredOpponents ti).isEmpty)) = true) :
    ValidWeek n required st.games := by
  have hall : ∀ ti, ti < n → (st.requiredOpponents ti).isEmpty = true := by
    intro ti hti
    exact List.all_eq_true.mp hacc ti (List.mem_range.mpr hti)
  have hcount3 : ∀ ti, ti < n →
      st.games.countP (fun m => decide (playsIn n ti m)) = 3 := by
    have hsum : ∑ ti in Finset.range n,
        st.games.countP (fun m => decide (playsIn n ti m)) = 3 * n := by
      rw [sum_countP_playsIn n st.games hinv.games_valid, hlen]
      obtain ⟨k, hk⟩ := heven
      subst hk
      unfold nSlots
      omega
    intro ti hti
    refine counts_all_three _ (fun i hi => ?_) hsum ti hti
    rw [← hinv.counts i]
    exact hinv.counts_le i
  refine ⟨hlen, hinv.nodup, hinv.games_valid, ?_, ?_⟩
  · intro m hm hmlt
    by_contra hnot
    have hro := hinv.req_inv m hm hmlt hnot
    obtain ⟨t1, t2, h12, h2n, henc⟩ := encodeMatchup_surj hmlt
    have hdec : decodeMatchup n m = (t1, t2) := by
      rw [← henc]
      exact decode_encode h12 h2n
    rw [hdec] at hro
    have hempty := hall t1 (by omega)
    rw [List.isEmpty_iff] at hempty
    rw [hempty] at hro
    cases hro
  · intro ti hti
    have hlen3 : (teamSlots n st.games ti).length = 3 := by
      rw [teamSlots_length]
      exact hcount3 ti hti
    refine ⟨hlen3, ?_⟩
    obtain ⟨pi, hpi⟩ :=
      Nat.ne_zero_implies_bit_true (hinv.masks_ne ti hti)
    obtain ⟨hpilt, hsub⟩ := hinv.masks_sub ti pi hpi
    exact ⟨pi, hpilt, hsub⟩

/-- Placing a pair that passes all of `backtrack`'s checks preserves the
search invariant. -/
theorem placed_inv {n excludeMatchups slot : Nat} {required : List Nat}
    {st : SearchState} (hinv : SearchInv n excludeMatchups required st)
    (hlen : st.games.length = slot)
    {ti1 ti2 : Nat} (h2n : ti2 < n) (h12 : ti1 < ti2)
    (hc1 : st.slotCounts ti1 < 3) (hc2 : st.slotCounts ti2 < 3)
    (hused : st.usedMatchups.testBit (encodeMatchup n ti1 ti2 % 32) = false)
    (hm1 : (placed n st (slotMask n slot) ti1 ti2).validMasks ti1 ≠ 0)
    (hm2 : (placed n st (slotMask n slot) ti1 ti2).validMasks ti2 ≠ 0) :
    SearchInv n excludeMatchups required
      (placed n st (slotMask n slot) ti1 ti2) := by
  have hne : ti1 ≠ ti2 := Nat.ne_of_lt h12
  have hdec : decodeMatchup n (encodeMatchup n ti1 ti2) = (ti1, ti2) :=
    decode_encode h12 h2n
  have hmnotin : encodeMatchup n ti1 ti2 ∉ st.games := by
    intro hmem
    rw [hinv.used_bits _ hmem] at hused
    cases hused
  refine ⟨?_, ?_, ?_, ?_, ?_, ?_, ?_, ?_⟩
  · intro m' hm'
    rw [placed_games, List.mem_append] at hm'
    rcases hm' with h | h
    · exact hinv.games_valid m' h
    · rw [List.mem_singleton] at h
      exact ⟨ti1, ti2, h12, h2n, h⟩
  · rw [placed_games, List.nodup_append]
    refine ⟨hinv.nodup, List.nodup_singleton _, ?_⟩
    intro a ha hb
    rw [List.mem_singleton] at hb
    subst hb
    exact hmnotin ha
  · intro m' hm'
    rw [placed_games, List.mem_append] at hm'
    rw [placed_used, Nat.testBit_lor]
    rcases hm' with h | h
    · rw [hinv.used_bits m' h, Bool.true_or]
    · rw [List.mem_singleton] at h
      subst h
      rw [Nat.one_shiftLeft, Nat.testBit_two_pow_self, Bool.or_true]
  · intro ti
    rw [placed_slotCounts _ _ _ _ _ hne, placed_games, List.countP_append]
    have hsingle : ∀ tj : Nat, ([encodeMatchup n ti1 ti2].countP
        (fun m' => decide (playsIn n tj m')))
        = if tj = ti1 ∨ tj = ti2 then 1 else 0 := by
      intro tj
      by_cases h : tj = ti1 ∨ tj = ti2
      · simp [List.countP_cons, (playsIn_encode h12 h2n).mpr h, h]
      · have : ¬ playsIn n tj (encodeMatchup n ti1 ti2) := fun hp =>
          h ((playsIn_encode h12 h2n).mp hp)
        simp [List.countP_cons, this, h]
    by_cases h2 : ti = ti2
    · subst h2
      rw [if_pos rfl, hinv.counts ti, hsingle,
        if_pos (Or.inr rfl)]
    · rw [if_neg h2]
      by_cases h1 : ti = ti1
      · subst h1
        rw [if_pos rfl, hinv.counts ti, hsingle, if_pos (Or.inl rfl)]
      · rw [if_neg h1, hinv.counts ti, hsingle, if_neg (by tauto),
          Nat.add_zero]
  · intro ti
    rw [placed_slotCounts _ _ _ _ _ hne]
    by_cases h2 : ti = ti2
    · rw [if_pos h2]
      omega
    · rw [if_neg h2]
      by_cases h1 : ti = ti1
      · rw [if_pos h1]
        omega
      · rw [if_neg h1]
        exact hinv.counts_le ti
  · intro ti pi htb
    rw [placed_validMasks _ _ _ _ _ hne] at htb
    have hnewslots : ∀ tj : Nat, teamSlots n (placed n st (slotMask n slot) ti1 ti2).games tj
        = teamSlots n st.games tj
          ++ (if playsIn n tj (encodeMatchup n ti1 ti2)
              then [st.games.length] else []) := by
      intro tj
      rw [placed_games, teamSlots_append]
    by_cases h2 : ti = ti2
    · subst h2
      rw [if_pos rfl, Nat.testBit_land, Bool.and_eq_true] at htb
      obtain ⟨hold, hsm⟩ := htb
      obtain ⟨hpilt, hsub⟩ := hinv.masks_sub ti pi hold
      obtain ⟨_, hslotmem⟩ := testBit_slotMask.mp hsm
      refine ⟨hpilt, ?_⟩
      intro s hs
      rw [hnewslots, if_pos ((playsIn_encode h12 h2n).mpr (Or.inr rfl)),
        List.mem_append, List.mem_singleton] at hs
      rcases hs with h | h
      · exact hsub s h
      · subst h
        rw [hlen]
        exact hslotmem
    · rw [if_neg h2] at htb
      by_cases h1 : ti = ti1
      · subst h1
        rw [if_pos rfl, Nat.testBit_land, Bool.and_eq_true] at htb
        obtain ⟨hold, hsm⟩ := htb
        obtain ⟨hpilt, hsub⟩ := hinv.masks_sub ti pi hold
        obtain ⟨_, hslotmem⟩ := testBit_slotMask.mp hsm
        refine ⟨hpilt, ?_⟩
        intro s hs
        rw [hnewslots, if_pos ((playsIn_encode h12 h2n).mpr (Or.inl rfl)),
          List.mem_append, List.mem_singleton] at hs
        rcases hs with h | h
        · exact hsub s h
        · subst h
          rw [hlen]
          exact hslotmem
      · rw [if_neg h1] at htb
        obtain ⟨hpilt, hsub⟩ := hinv.masks_sub ti pi htb
        refine ⟨hpilt, ?_⟩
        intro s hs
        rw [hnewslots, if_neg (fun hp =>
            (by tauto : ¬ (ti = ti1 ∨ ti = ti2))
              ((playsIn_encode h12 h2n).mp hp)),
          List.append_nil] at hs
        exact hsub s hs
  · intro ti hti
    by_cases h2 : ti = ti2
    · subst h2
      exact hm2
    · by_cases h1 : ti = ti1
      · subst h1
        exact hm1
      · rw [placed_validMasks _ _ _ _ _ hne, if_neg h2, if_neg h1]
        exact hinv.masks_ne ti hti
  · intro m' hm' hlt hnotin
    rw [placed_games, List.mem_append, List.mem_singleton] at hnotin
    push_neg at hnotin
    obtain ⟨hnotg, hnotm⟩ := hnotin
    have hro := hinv.req_inv m' hm' hlt hnotg
    obtain ⟨s1, s2, hs12, hs2n, hsenc⟩ := encodeMatchup_surj hlt
    have hdec' : decodeMatchup n m' = (s1, s2) := by
      rw [← hsenc]
      exact decode_encode hs12 hs2n
    rw [hdec'] at hro ⊢
    rw [placed_requiredOpponents _ _ _ _ _ hne]
    simp only
    by_cases hA : s1 = ti2
    · rw [if_pos hA]
      have hne2 : s2 ≠ ti1 := by omega
      exact (List.mem_erase_of_ne hne2).mpr (hA ▸ hro)
    · rw [if_neg hA]
      by_cases hB : s1 = ti1
      · rw [if_pos hB]
        have hne2 : s2 ≠ ti2 := by
          intro hs2
          apply hnotm
          rw [← hsenc, hB, hs2]
        exact (List.mem_erase_of_ne hne2).mpr (hB ▸ hro)
      · rw [if_neg hB]
        exact hro

/-- Soundness of the acceptance helper against the invariant. -/
theorem acceptWeek_sound {n excludeMatchups : Nat} {required : List Nat}
    (heven : Even n) {st : SearchState}
    (hlen : st.games.length = nSlots n)
    (hinv : SearchInv n excludeMatchups required st)
    {sched : List Nat} (hsched : sched ∈ acceptWeek n st) :
    ValidWeek n required sched := by
  unfold acceptWeek at hsched
  by_cases hacc : ((List.range n).all
      fun ti => (st.requiredOpponents ti).isEmpty) = true
  · rw [if_pos hacc, List.mem_singleton] at hsched
    subst hsched
    exact accept_sound heven hlen hinv hacc
  · rw [if_neg hacc] at hsched
    cases hsched

/-- Main soundness of the backtracking search: every schedule it emits from
an invariant-satisfying state is a valid week. -/
theorem backtrack_sound (n excludeMatchups : Nat) (required : List Nat)
    (heven : Even n) :
    ∀ fuel slot st, slot + fuel = nSlots n → st.games.length = slot →
      SearchInv n excludeMatchups required st →
      ∀ sched ∈ backtrack n excludeMatchups fuel slot st,
        ValidWeek n required sched := by
  intro fuel
  induction fuel with
  | zero =>
    intro slot st hfuel hlen hinv sched hsched
    have hslot : slot = nSlots n := by omega
    rw [backtrack, if_pos hslot] at hsched
    exact acceptWeek_sound heven (hlen.trans hslot) hinv hsched
  | succ f ih =>
    intro slot st hfuel hlen hinv sched hsched
    rw [backtrack] at hsched
    by_cases hslot : slot = nSlots n
    · rw [if_pos hslot] at hsched
      exact acceptWeek_sound heven (hlen.trans hslot) hinv hsched
    · rw [if_neg hslot] at hsched
      by_cases hfew : ((List.range n).filter fun ti =>
          decide (st.slotCounts ti < 3 ∧
            st.validMasks ti &&& slotMask n slot ≠ 0)).length < 2
      · rw [if_pos hfew] at hsched
        cases hsched
      · rw [if_neg hfew] at hsched
        obtain ⟨p, hp, hsp⟩ := List.mem_flatMap.mp hsched
        have hcand_sorted : ((List.range n).filter fun ti =>
            decide (st.slotCounts ti < 3 ∧
              st.validMasks ti &&& slotMask n slot ≠ 0)).Pairwise (· < ·) :=
          List.Pairwise.filter _ (List.pairwise_lt_range n)
        obtain ⟨hp1, hp2, hp12⟩ := pairsOf_mem hcand_sorted hp
        have h1 := List.mem_filter.mp hp1
        have h2 := List.mem_filter.mp hp2
        have h2n : p.2 < n := List.mem_range.mp h2.1
        obtain ⟨hc1, _⟩ := of_decide_eq_true h1.2
        obtain ⟨hc2, _⟩ := of_decide_eq_true h2.2
        by_cases hskip : (st.usedMatchups.testBit (encodeMatchup n p.1 p.2 % 32)
            || excludeMatchups.testBit (encodeMatchup n p.1 p.2 % 32)) = true
        · rw [if_pos hskip] at hsp
          cases hsp
        · rw [if_neg hskip] at hsp
          have hused : st.usedMatchups.testBit
              (encodeMatchup n p.1 p.2 % 32) = false :=
            Bool.eq_false_iff.mpr fun h => hskip (by rw [h, Bool.true_or])
          have hexcl : excludeMatchups.testBit
              (encodeMatchup n p.1 p.2 % 32) = false :=
            Bool.eq_false_iff.mpr fun h => hskip (by rw [h, Bool.or_true])
          by_cases hok : (placed n st (slotMask n slot) p.1 p.2).validMasks p.1 ≠ 0 ∧
              (placed n st (slotMask n slot) p.1 p.2).validMasks p.2 ≠ 0 ∧
              (∀ ti ∈ List.range n,
                (placed n st (slotMask n slot) p.1 p.2).slotCounts ti < 3 →
                (placed n st (slotMask n slot) p.1 p.2).validMasks ti ≠ 0) ∧
              (∀ ti ∈ List.range n,
                ((placed n st (slotMask n slot) p.1 p.2).requiredOpponents ti).length
                  ≤ 3 - (placed n st (slotMask n slot) p.1 p.2).slotCounts ti)
          · rw [if_pos hok] at hsp
            by_cases hneed : ((List.range n).map fun ti =>
                3 - (placed n st (slotMask n slot) p.1 p.2).slotCounts ti).sum
                ≤ 2 * (nSlots n - slot - 1)
            · rw [if_pos hneed] at hsp
              refine ih (slot + 1) (placed n st (slotMask n slot) p.1 p.2)
                (by omega) ?_ ?_ sched hsp
              · rw [placed_games, List.length_append, hlen,
                  List.length_singleton]
              · exact placed_inv hinv hlen h2n hp12 hc1 hc2 hused
                  hok.1 hok.2.1
            · rw [if_neg hneed] at hsp
              cases hsp
          · rw [if_neg hok] at hsp
            cases hsp

theorem mem_acceptWeek {n : Nat} {st : SearchState} {sched : List Nat}
    (h : sched ∈ acceptWeek n st) : sched = st.games := by
  unfold acceptWeek at h
  split at h
  · exact List.mem_singleton.mp h
  · cases h

/-- Separate invariant: every matchup the search places passes the exclusion
check, so games already satisfying the exclusion also do below.  (Kept apart
from `SearchInv` because the `firstGame` seeding writes slot 0 without
consulting `excludeMatchups`.) -/
theorem backtrack_excl (n excludeMatchups : Nat) :
    ∀ fuel slot st,
      (∀ m ∈ st.games, excludeMatchups.testBit (m % 32) = false) →
      ∀ sched ∈ backtrack n excludeMatchups fuel slot st,
        ∀ m ∈ sched, excludeMatchups.testBit (m % 32) = false := by
  intro fuel
  induction fuel with
  | zero =>
    intro slot st hst sched hsched m hm
    rw [backtrack] at hsched
    split at hsched
    · rw [mem_acceptWeek hsched] at hm
      exact hst m hm
    · cases hsched
  | succ f ih =>
    intro slot st hst sched hsched m hm
    rw [backtrack] at hsched
    split at hsched
    · rw [mem_acceptWeek hsched] at hm
      exact hst m hm
    · split at hsched
      · cases hsched
      · obtain ⟨p, _, hsp⟩ := List.mem_flatMap.mp hsched
        by_cases hskip : (st.usedMatchups.testBit (encodeMatchup n p.1 p.2 % 32)
            || excludeMatchups.testBit (encodeMatchup n p.1 p.2 % 32)) = true
        · rw [if_pos hskip] at hsp
          cases hsp
        · rw [if_neg hskip] at hsp
          have hexcl : excludeMatchups.testBit
              (encodeMatchup n p.1 p.2 % 32) = false :=
            Bool.eq_false_iff.mpr fun h => hskip (by rw [h, Bool.or_true])
          split at hsp
          · split at hsp
            · refine ih (slot + 1) (placed n st (slotMask n slot) p.1 p.2)
                ?_ sched hsp m hm
              intro m' hm'
              rw [placed_games, List.mem_append, List.mem_singleton] at hm'
              rcases hm' with h | h
              · exact hst m' h
              · rw [h]
                exact hexcl
            · cases hsp
          · cases hsp

theorem nSlots_ge_six {n : Nat} (heven : Even n) (hn4 : 4 ≤ n) :
    6 ≤ nSlots n := by
  obtain ⟨k, hk⟩ := heven
  subst hk
  unfold nSlots
  omega

theorem nPatterns_pos {n : Nat} (h4 : 4 ≤ nSlots n) : 0 < nPatterns n := by
  have hmem : [0, 1, 3] ∈ PATTERNS n := by
    unfold PATTERNS buildPatterns SHAPES_4 SHAPES_5
    simp only [List.cons_append, List.nil_append, List.mem_flatMap]
    refine ⟨[0, 1, 3], by simp, ?_⟩
    simp only [List.mem_map, List.mem_range]
    exact ⟨0, by simp; omega, by simp⟩
  unfold nPatterns
  exact List.length_pos.mpr (List.ne_nil_of_mem hmem)

theorem allPatternsMask_ne_zero {n : Nat} (h : 0 < nPatterns n) :
    allPatternsMask n ≠ 0 := by
  unfold allPatternsMask
  rw [Nat.one_shiftLeft]
  have h2 : 2 ≤ 2 ^ nPatterns n := by
    calc 2 = 2 ^ 1 := rfl
    _ ≤ 2 ^ nPatterns n := Nat.pow_le_pow_right (by omega) h
  omega

theorem buildRequiredOpponents_step_mono (n : Nat) (acc : Nat → List Nat)
    (m x v : Nat) (hv : v ∈ acc x) :
    v ∈ (Function.update
      (Function.update acc (decodeMatchup n m).1
        (setAdd (decodeMatchup n m).2 (acc (decodeMatchup n m).1)))
      (decodeMatchup n m).2
      (setAdd (decodeMatchup n m).1
        ((Function.update acc (decodeMatchup n m).1
          (setAdd (decodeMatchup n m).2 (acc (decodeMatchup n m).1)))
          (decodeMatchup n m).2))) x := by
  have hsetAdd : ∀ (y : Nat) (l : List Nat) (w : Nat), w ∈ l → w ∈ setAdd y l := by
    intro y l w hw
    unfold setAdd
    split
    · exact hw
    · exact List.mem_cons_of_mem _ hw
  rw [update2_apply]
  split
  · rename_i hx2
    subst hx2
    apply hsetAdd
    rw [Function.update_apply]
    split
    · rename_i hx1
      rw [← hx1]
      exact hsetAdd _ _ _ hv
    · exact hv
  · split
    · rename_i hx1
      subst hx1
      exact hsetAdd _ _ _ hv
    · exact hv

theorem buildRequiredOpponents_foldl_mono (n : Nat) (l : List Nat)
    (acc : Nat → List Nat) (x v : Nat) (hv : v ∈ acc x) :
    v ∈ (l.foldl
      (fun ro m =>
        let t1 := (decodeMatchup n m).1
        let t2 := (decodeMatchup n m).2
        let ro1 := Function.update ro t1 (setAdd t2 (ro t1))
        Function.update ro1 t2 (setAdd t1 (ro1 t2))) acc) x := by
  induction l generalizing acc with
  | nil => exact hv
  | cons m l ih =>
    exact ih _ (buildRequiredOpponents_step_mono n acc m x v hv)

theorem buildRequiredOpponents_mem (n : Nat) (required : List Nat) :
    ∀ m ∈ required, m < nMatchups n →
      (decodeMatchup n m).2 ∈
        buildRequiredOpponents n required (decodeMatchup n m).1 := by
  have key : ∀ (l : List Nat) (acc : Nat → List Nat),
      ∀ m ∈ l, m < nMatchups n →
        (decodeMatchup n m).2 ∈ (l.foldl
          (fun ro m' =>
            let t1 := (decodeMatchup n m').1
            let t2 := (decodeMatchup n m').2
            let ro1 := Function.update ro t1 (setAdd t2 (ro t1))
            Function.update ro1 t2 (setAdd t1 (ro1 t2))) acc)
          (decodeMatchup n m).1 := by
    intro l
    induction l with
    | nil =>
      intro acc m hm
      cases hm
    | cons m0 l ih =>
      intro acc m hm hmlt
      rcases List.mem_cons.mp hm with rfl | hmem
      · obtain ⟨s1, s2, hs12, hs2n, hsenc⟩ := encodeMatchup_surj hmlt
        have hdec : decodeMatchup n m = (s1, s2) := by
          rw [← hsenc]
          exact decode_encode hs12 hs2n
        rw [List.foldl_cons]
        apply buildRequiredOpponents_foldl_mono
        rw [hdec]
        simp only
        rw [update2_apply]
        have hs_ne : s1 ≠ s2 := by omega
        rw [if_neg hs_ne, if_pos rfl]
        unfold setAdd
        split
        · assumption
        · exact List.mem_cons_self _ _
      · rw [List.foldl_cons]
        exact ih _ m hmem hmlt
  intro m hm hmlt
  unfold buildRequiredOpponents
  exact key required (fun _ => []) m hm hmlt

/-- The state `enumerateSchedules` starts `backtrack(0)` from (no
`firstGame`) satisfies the invariant. -/
theorem initInv_none (n excludeMatchups : Nat) (required : List Nat)
    (heven : Even n) (hn4 : 4 ≤ n) :
    SearchInv n excludeMatchups required
      { games := []
        slotCounts := fun _ => 0
        validMasks := fun _ => allPatternsMask n
        usedMatchups := 0
        requiredOpponents := buildRequiredOpponents n required } := by
  have hpos : 0 < nPatterns n :=
    nPatterns_pos (by have := nSlots_ge_six heven hn4; omega)
  refine ⟨?_, ?_, ?_, ?_, ?_, ?_, ?_, ?_⟩
  · intro m hm
    cases hm
  · exact List.nodup_nil
  · intro m hm
    cases hm
  · intro ti
    rfl
  · intro ti
    exact Nat.zero_le 3
  · intro ti pi htb
    refine ⟨testBit_allPatternsMask.mp htb, ?_⟩
    intro s hs
    cases hs
  · intro ti _
    exact allPatternsMask_ne_zero hpos
  · intro m hm hmlt _
    exact buildRequiredOpponents_mem n required m hm hmlt

/-- The state the `firstGame` branch starts `backtrack(1)` from satisfies
the invariant, for any two distinct valid teams and any two patterns
containing slot 0. -/
theorem initInv_first (n excludeMatchups : Nat) (required : List Nat)
    (heven : Even n) (hn4 : 4 ≤ n) (a b : Nat) (hab : a ≠ b) (han : a < n)
    (hbn : b < n) (pa pb : Nat) (hpa : pa ∈ patternsWithSlot0 n)
    (hpb : pb ∈ patternsWithSlot0 n) :
    SearchInv n excludeMatchups required
      { games := [encodeMatchup n a b]
        slotCounts := Function.update (Function.update (fun _ => 0) a 1) b 1
        validMasks := Function.update
          (Function.update (fun _ => allPatternsMask n) a (1 <<< pa))
          b (1 <<< pb)
        usedMatchups := 1 <<< (encodeMatchup n a b % 32)
        requiredOpponents := buildRequiredOpponents n required } := by
  have hpos : 0 < nPatterns n :=
    nPatterns_pos (by have := nSlots_ge_six heven hn4; omega)
  have hsorted : ∃ t1 t2, t1 < t2 ∧ t2 < n ∧
      encodeMatchup n a b = encodeMatchup n t1 t2 := by
    rcases Nat.lt_or_ge a b with h | h
    · exact ⟨a, b, h, hbn, rfl⟩
    · exact ⟨b, a, by omega, han, encodeMatchup_comm n a b⟩
  obtain ⟨t1, t2, h12, h2n, henc⟩ := hsorted
  have hdec : decodeMatchup n (encodeMatchup n a b) = (t1, t2) := by
    rw [henc]
    exact decode_encode h12 h2n
  have hplays : ∀ ti, playsIn n ti (encodeMatchup n a b) ↔ ti = a ∨ ti = b := by
    intro ti
    unfold playsIn
    rcases Nat.lt_or_ge a b with h | h
    · rw [decode_encode h hbn]
    · have hba : b < a := by omega
      rw [encodeMatchup_comm n a b, decode_encode hba han]
      show ti = b ∨ ti = a ↔ ti = a ∨ ti = b
      tauto
  refine ⟨?_, ?_, ?_, ?_, ?_, ?_, ?_, ?_⟩
  · intro m hm
    rw [List.mem_singleton] at hm
    exact ⟨t1, t2, h12, h2n, hm.trans henc⟩
  · exact List.nodup_singleton _
  · intro m hm
    rw [List.mem_singleton] at hm
    subst hm
    show (1 <<< (encodeMatchup n a b % 32) : Nat).testBit
      (encodeMatchup n a b % 32) = true
    rw [Nat.one_shiftLeft]
    exact Nat.testBit_two_pow_self
  · intro ti
    have hcount : [encodeMatchup n a b].countP
        (fun m => decide (playsIn n ti m))
        = if ti = a ∨ ti = b then 1 else 0 := by
      by_cases h : ti = a ∨ ti = b
      · simp [List.countP_cons, (hplays ti).mpr h, h]
      · have : ¬ playsIn n ti (encodeMatchup n a b) := fun hp =>
          h ((hplays ti).mp hp)
        simp [List.countP_cons, this, h]
    show Function.update (Function.update (fun _ => 0) a 1) b 1 ti
      = [encodeMatchup n a b].countP (fun m => decide (playsIn n ti m))
    rw [hcount, update2_apply]
    by_cases h2 : ti = b
    · rw [if_pos h2, if_pos (Or.inr h2)]
    · rw [if_neg h2]
      by_cases h1 : ti = a
      · rw [if_pos h1, if_pos (Or.inl h1)]
      · rw [if_neg h1, if_neg (by tauto)]
  · intro ti
    show Function.update (Function.update (fun _ => 0) a 1) b 1 ti ≤ 3
    rw [update2_apply]
    split
    · omega
    · split
      · omega
      · omega
  · intro ti pi htb
    have htb' : (Function.update
        (Function.update (fun _ => allPatternsMask n) a (1 <<< pa))
        b (1 <<< pb) ti).testBit pi = true := htb
    rw [update2_apply] at htb'
    show pi < nPatterns n ∧
      ∀ s ∈ teamSlots n [encodeMatchup n a b] ti, s ∈ (PATTERNS n).getD pi []
    have hbit : ∀ q : Nat, ((1 <<< q : Nat).testBit pi = true) ↔ q = pi := by
      intro q
      rw [Nat.one_shiftLeft, Nat.testBit_two_pow]
      simp
    have hslots : ∀ tj : Nat, teamSlots n [encodeMatchup n a b] tj
        = if playsIn n tj (encodeMatchup n a b) then [0] else [] := by
      intro tj
      have : teamSlots n ([] ++ [encodeMatchup n a b]) tj
          = teamSlots n ([] : List Nat) tj
            ++ (if playsIn n tj (encodeMatchup n a b)
                then [([] : List Nat).length] else []) :=
        teamSlots_append n [] (encodeMatchup n a b) tj
      simpa using this
    have hpat0 : ∀ q ∈ patternsWithSlot0 n,
        q < nPatterns n ∧ 0 ∈ (PATTERNS n).getD q [] := by
      intro q hq
      obtain ⟨hqr, hq0⟩ := List.mem_filter.mp hq
      exact ⟨List.mem_range.mp hqr, of_decide_eq_true hq0⟩
    split at htb'
    · rename_i h2
      subst h2
      have hpieq : pb = pi := (hbit pb).mp htb'
      subst hpieq
      obtain ⟨hlt, h0⟩ := hpat0 pb hpb
      refine ⟨hlt, ?_⟩
      intro s hs
      rw [hslots, if_pos ((hplays ti).mpr (Or.inr rfl))] at hs
      rw [List.mem_singleton] at hs
      subst hs
      exact h0
    · split at htb'
      · rename_i h2 h1
        subst h1
        have hpieq : pa = pi := (hbit pa).mp htb'
        subst hpieq
        obtain ⟨hlt, h0⟩ := hpat0 pa hpa
        refine ⟨hlt, ?_⟩
        intro s hs
        rw [hslots, if_pos ((hplays ti).mpr (Or.inl rfl))] at hs
        rw [List.mem_singleton] at hs
        subst hs
        exact h0
      · rename_i h2 h1
        refine ⟨testBit_allPatternsMask.mp htb', ?_⟩
        intro s hs
        rw [hslots, if_neg (fun hp => ?_)] at hs
        · cases hs
        · rcases (hplays ti).mp hp with h | h
          · exact h1 h
          · exact h2 h
  · intro ti _
    show Function.update
      (Function.update (fun _ => allPatternsMask n) a (1 <<< pa))
      b (1 <<< pb) ti ≠ 0
    rw [update2_apply]
    have hpow : ∀ q : Nat, (1 <<< q : Nat) ≠ 0 := by
      intro q
      rw [Nat.one_shiftLeft]
      have : 0 < 2 ^ q := Nat.pos_pow_of_pos q (by omega)
      omega
    split
    · exact hpow pb
    · split
      · exact hpow pa
      · exact allPatternsMask_ne_zero hpos
  · intro m hm hmlt _
    exact buildRequiredOpponents_mem n required m hm hmlt


/-- Every schedule `enumerateSchedules` passes to `onSchedule` is a valid
week, in both the constrained mode and the `firstGame` seeding mode. -/
theorem enumerateSchedules_sound (n excludeMatchups : Nat)
    (required : List Nat) (firstGame : Option (Nat × Nat))
    (heven : Even n) (hn4 : 4 ≤ n)
    (hfg : ∀ a b, firstGame = some (a, b) → a ≠ b ∧ a < n ∧ b < n) :
    ∀ sched ∈ enumerateSchedules n excludeMatchups required firstGame,
      ValidWeek n required sched := by
  intro sched hsched
  have hslots := nSlots_ge_six heven hn4
  cases firstGame with
  | none =>
    simp only [enumerateSchedules] at hsched
    exact backtrack_sound n excludeMatchups required heven (nSlots n) 0
      { games := []
        slotCounts := fun _ => 0
        validMasks := fun _ => allPatternsMask n
        usedMatchups := 0
        requiredOpponents := buildRequiredOpponents n required }
      (by omega) rfl (initInv_none n excludeMatchups required heven hn4)
      sched hsched
  | some ab =>
    obtain ⟨a, b⟩ := ab
    obtain ⟨hab, han, hbn⟩ := hfg a b rfl
    simp only [enumerateSchedules] at hsched
    obtain ⟨pa, hpa, h1⟩ := List.mem_flatMap.mp hsched
    obtain ⟨pb, hpb, h2⟩ := List.mem_flatMap.mp h1
    split at h2
    · cases h2
    · exact backtrack_sound n excludeMatchups required heven
        (nSlots n - 1) 1
        { games := [encodeMatchup n a b]
          slotCounts := Function.update (Function.update (fun _ => 0) a 1) b 1
          validMasks := Function.update
            (Function.update (fun _ => allPatternsMask n) a (1 <<< pa))
            b (1 <<< pb)
          usedMatchups := 1 <<< (encodeMatchup n a b % 32)
          requiredOpponents := buildRequiredOpponents n required }
        (by omega) rfl
        (initInv_first n excludeMatchups required heven hn4 a b hab han hbn
          pa pb hpa hpb) sched h2

/-- In the constrained mode (no `firstGame`) no emitted schedule contains a
matchup whose exclusion bit is set. -/
theorem enumerateSchedules_excl (n excludeMatchups : Nat)
    (required : List Nat) :
    ∀ sched ∈ enumerateSchedules n excludeMatchups required none,
      ∀ m ∈ sched, excludeMatchups.testBit (m % 32) = false := by
  intro sched hsched
  simp only [enumerateSchedules] at hsched
  exact backtrack_excl n excludeMatchups (nSlots n) 0 _
    (fun m hm => absurd hm (List.not_mem_nil m)) sched hsched

theorem slotSpan_three (a b c : Nat) : slotSpan [a, b, c] = c + 1 - a := rfl

/-- Spans of a valid week: every team's three slots form one of the five
shifted base shapes, so the span is 4 or 5. -/
theorem validWeek_span {n : Nat} {required : List Nat} {sched : List Nat}
    (hv : ValidWeek n required sched) {ti : Nat} (hti : ti < n) :
    slotSpan (teamSlots n sched ti) = 4 ∨
      slotSpan (teamSlots n sched ti) = 5 := by
  obtain ⟨hlen3, pi, hpilt, hsub⟩ := hv.2.2.2.2 ti hti
  have hpmem : (PATTERNS n).getD pi [] ∈ PATTERNS n := by
    rw [List.getD_eq_getElem _ _ hpilt]
    exact List.getElem_mem hpilt
  obtain ⟨k, hk⟩ := mem_PATTERNS hpmem
  have hts := teamSlots_sorted n sched ti
  have hsort3 : ∀ d1 d2 : Nat, 0 < d1 → d1 < d2 →
      ([k, k + d1, k + d2] : List Nat).Pairwise (· < ·) := by
    intro d1 d2 h1 h2
    refine List.Pairwise.cons ?_
      (List.Pairwise.cons ?_ (List.pairwise_singleton _ _))
    · intro x hx
      rcases List.mem_cons.mp hx with rfl | hx
      · omega
      · rw [List.mem_singleton] at hx
        subst hx
        omega
    · intro x hx
      rw [List.mem_singleton] at hx
      subst hx
      omega
  rcases hk with h | h | h | h | h
  · rw [h] at hsub
    have heq := sorted_three_eq hts (hsort3 1 3 (by omega) (by omega))
      hlen3 rfl hsub
    rw [heq, slotSpan_three]
    left
    omega
  · rw [h] at hsub
    have heq := sorted_three_eq hts (hsort3 2 3 (by omega) (by omega))
      hlen3 rfl hsub
    rw [heq, slotSpan_three]
    left
    omega
  · rw [h] at hsub
    have heq := sorted_three_eq hts (hsort3 1 4 (by omega) (by omega))
      hlen3 rfl hsub
    rw [heq, slotSpan_three]
    right
    omega
  · rw [h] at hsub
    have heq := sorted_three_eq hts (hsort3 2 4 (by omega) (by omega))
      hlen3 rfl hsub
    rw [heq, slotSpan_three]
    right
    omega
  · rw [h] at hsub
    have heq := sorted_three_eq hts (hsort3 3 4 (by omega) (by omega))
      hlen3 rfl hsub
    rw [heq, slotSpan_three]
    right
    omega

/-- C1: for every set of constraints `(exclude, required)` and every `N` in
the supported range, every WeekSchedule produced by the Week Enumerator
(`enumerateSchedules`) is valid: each team appears in exactly 3 of the
`S = 3N/2` slots, no matchup id occurs twice within the week, and every
team's index span (last slot − first slot + 1) over its 3 appearances is at
most 5. -/
theorem claim_C1_enumerator_week_validity (n excludeMatchups : Nat)
    (required : List Nat) (firstGame : Option (Nat × Nat))
    (heven : Even n) (hn4 : 4 ≤ n) (hn16 : n ≤ 16)
    (hfg : ∀ a b, firstGame = some (a, b) → a ≠ b ∧ a < n ∧ b < n)
    (sched : List Nat)
    (hsched : sched ∈ enumerateSchedules n excludeMatchups required firstGame) :
    sched.length = nSlots n ∧ sched.Nodup ∧
    (∀ ti, ti < n → (teamSlots n sched ti).length = 3) ∧
    (∀ ti, ti < n → slotSpan (teamSlots n sched ti) ≤ 5) := by
  have hv := enumerateSchedules_sound n excludeMatchups required firstGame
    heven hn4 hfg sched hsched
  refine ⟨hv.1, hv.2.1, fun ti hti => (hv.2.2.2.2 ti hti).1, fun ti hti => ?_⟩
  rcases validWeek_span hv hti with h | h
  · omega
  · omega

/-- Witness for C1 at `N = 4` with empty constraints: the first schedule the
enumerator emits. -/
theorem claim_C1_witness :
    (Even 4 ∧ 4 ≤ 4 ∧ 4 ≤ 16 ∧
      [0, 1, 4, 2, 3, 5] ∈ enumerateSchedules 4 0 [] none) ∧
    [0, 1, 4, 2, 3, 5].Nodup :=
  ⟨⟨⟨2, rfl⟩, by decide, by decide, by decide⟩,
    (claim_C1_enumerator_week_validity 4 0 [] none ⟨2, rfl⟩ (by decide)
      (by decide) (fun a b h => Option.noConfusion h) [0, 1, 4, 2, 3, 5]
      (by decide)).2.1⟩

/-- C2: for every set of constraints `(exclude, required)`, every
WeekSchedule that the Week Enumerator passes to its `onSchedule` callback
contains no matchup id that is in `exclude`, and contains every matchup id
that is in `required` (each required matchup appears in some slot of the
week). -/
theorem claim_C2_constraint_satisfaction (n : Nat) (exclude : Finset Nat)
    (required : List Nat) (heven : Even n) (hn4 : 4 ≤ n) (hn16 : n ≤ 16)
    (hreq : ∀ m ∈ required, m < nMatchups n)
    (sched : List Nat)
    (hsched : sched ∈ enumerateSchedules n (excludeMaskOf exclude)
      required none) :
    (∀ e ∈ exclude, e ∉ sched) ∧ (∀ m ∈ required, m ∈ sched) := by
  constructor
  · intro e he hmem
    have hbit : (excludeMaskOf exclude).testBit (e % 32) = true :=
      testBit_excludeMaskOf.mpr ⟨e, he, rfl⟩
    have hfalse := enumerateSchedules_excl n (excludeMaskOf exclude) required
      sched hsched e hmem
    rw [hbit] at hfalse
    cases hfalse
  · intro m hm
    have hv := enumerateSchedules_sound n (excludeMaskOf exclude) required
      none heven hn4 (fun a b h => Option.noConfusion h) sched hsched
    exact hv.2.2.2.1 m hm (hreq m hm)

/-- Witness for C2 at `N = 4`, `exclude = ∅`, `required = {0}`. -/
theorem claim_C2_witness :
    (Even 4 ∧ 4 ≤ 4 ∧ 4 ≤ 16 ∧ (∀ m ∈ [0], m < nMatchups 4) ∧
      [0, 1, 4, 2, 3, 5] ∈ enumerateSchedules 4 (excludeMaskOf ∅) [0] none) ∧
    (∀ m ∈ [0], m ∈ [0, 1, 4, 2, 3, 5]) :=
  ⟨⟨⟨2, rfl⟩, by decide, by decide, by decide, by decide⟩,
    (claim_C2_constraint_satisfaction 4 ∅ [0] ⟨2, rfl⟩ (by decide) (by decide)
      (by decide) [0, 1, 4, 2, 3, 5] (by decide)).2⟩

/-- C10: for every WeekSchedule produced by the Week Enumerator, every
team's slot span is exactly 4 or exactly 5 — never 3: the pattern table is
built only from the two span-4 base shapes and three span-5 base shapes, so
a team can never play its 3 games in 3 consecutive slots. -/
theorem claim_C10_span_exactly_four_or_five (n excludeMatchups : Nat)
    (required : List Nat) (firstGame : Option (Nat × Nat))
    (heven : Even n) (hn4 : 4 ≤ n) (hn16 : n ≤ 16)
    (hfg : ∀ a b, firstGame = some (a, b) → a ≠ b ∧ a < n ∧ b < n)
    (sched : List Nat)
    (hsched : sched ∈ enumerateSchedules n excludeMatchups required firstGame) :
    ∀ ti, ti < n → slotSpan (teamSlots n sched ti) = 4 ∨
      slotSpan (teamSlots n sched ti) = 5 := by
  intro ti hti
  exact validWeek_span (enumerateSchedules_sound n excludeMatchups required
    firstGame heven hn4 hfg sched hsched) hti

/-- Witness for C10 at `N = 4`: the second schedule the enumerator emits. -/
theorem claim_C10_witness :
    (Even 4 ∧ 4 ≤ 4 ∧ 4 ≤ 16 ∧
      [0, 1, 4, 3, 2, 5] ∈ enumerateSchedules 4 0 [] none) ∧
    (slotSpan (teamSlots 4 [0, 1, 4, 3, 2, 5] 0) = 4 ∨
      slotSpan (teamSlots 4 [0, 1, 4, 3, 2, 5] 0) = 5) :=
  ⟨⟨⟨2, rfl⟩, by decide, by decide, by decide⟩,
    claim_C10_span_exactly_four_or_five 4 0 [] none ⟨2, rfl⟩ (by decide)
      (by decide) (fun a b h => Option.noConfusion h) [0, 1, 4, 3, 2, 5]
      (by decide) 0 (by decide)⟩

/-! ## Work Distributor: path hashing and deduplication

`hashPath` runs on JS `Number` values with `| 0` coercions, i.e. on 32-bit
two's-complement patterns; we compute on the bit patterns as naturals below
`2^32` (subtraction is two's-complement: `a - b` becomes
`a + 2^32 - b (mod 2^32)`; every reachable accumulator is `< 2^32`). -/

/-- One `hash = ((hash << 5) - hash + w) | 0; hash = ((hash << 13) ^ hash) | 0`
step of `hashPath`. -/
def hashStep (hash w : Nat) : Nat :=
  let h1 := (hash * 2 ^ 5 % 2 ^ 32 + 2 ^ 32 - hash + w) % 2 ^ 32
  (h1 * 2 ^ 13 % 2 ^ 32) ^^^ h1

/-- `hashPath(path)`: fold `hashStep` over every slot of every week. -/
def hashPath (path : List (List Nat)) : Nat :=
  path.foldl (fun h week => week.foldl hashStep h) 0

/-- The coordinator's handler for a worker's `optimal` message: each
continuation is prefixed with `week0`; the dedup check-and-insert runs only
when the hash set is non-empty (`existingPathHashes.size > 0`), i.e. only
when resuming; the returned pair is (paths handed to `writePathBatch`,
final hash set). -/
def processOptimal (week0 : List Nat) (continuations : List (List (List Nat)))
    (existingPathHashes : Finset Nat) :
    List (List (List Nat)) × Finset Nat :=
  continuations.foldl
    (fun acc laterWeeks =>
      let fullPath := week0 :: laterWeeks
      if acc.2.card > 0 then
        if hashPath fullPath ∈ acc.2 then acc
        else (acc.1 ++ [fullPath], insert (hashPath fullPath) acc.2)
      else (acc.1 ++ [fullPath], acc.2))
    ([], existingPathHashes)

theorem hashStep_lt (hash w : Nat) : hashStep hash w < 2 ^ 32 := by
  unfold hashStep
  exact Nat.xor_lt_two_pow (Nat.mod_lt _ (by omega)) (Nat.mod_lt _ (by omega))

/-- The hash range is contained in `[0, 2^32)`: the hash is 32 bits wide,
not 64 or more. -/
theorem hashPath_lt (path : List (List Nat)) : hashPath path < 2 ^ 32 := by
  unfold hashPath
  have main : ∀ (l : List (List Nat)) (h0 : Nat), h0 < 2 ^ 32 →
      l.foldl (fun h week => week.foldl hashStep h) h0 < 2 ^ 32 := by
    intro l
    induction l with
    | nil =>
      intro h0 hlt
      exact hlt
    | cons week l ih =>
      intro h0 hlt
      refine ih _ ?_
      have inner : ∀ (wk : List Nat) (h1 : Nat), h1 < 2 ^ 32 →
          wk.foldl hashStep h1 < 2 ^ 32 := by
        intro wk
        induction wk with
        | nil =>
          intro h1 h1lt
          exact h1lt
        | cons x wk ihw =>
          intro h1 _
          exact ihw _ (hashStep_lt h1 x)
      exact inner week h0 hlt
  exact main path 0 (by omega)

/-- C8 (counterexample evaluation): on a fresh run the dedup hash set is
empty, so `existingPathHashes.size > 0` fails and the handler writes every
path — including an exact duplicate — without hashing, checking, or
inserting anything. -/
theorem claim_C8_counterexample_fresh_run_no_dedup :
    (processOptimal [0, 1, 4, 2, 3, 5]
      [[[5, 3, 2, 4, 1, 0]], [[5, 3, 2, 4, 1, 0]]] ∅).1
      = [[[0, 1, 4, 2, 3, 5], [5, 3, 2, 4, 1, 0]],
         [[0, 1, 4, 2, 3, 5], [5, 3, 2, 4, 1, 0]]] ∧
    (processOptimal [0, 1, 4, 2, 3, 5]
      [[[5, 3, 2, 4, 1, 0]], [[5, 3, 2, 4, 1, 0]]] ∅).2 = ∅ := by
  constructor
  · rfl
  · rfl

/-- C8 (amended): every path hash is 32 bits wide (so the range has at most
`2^32 < 2^64` values); on a fresh run (`existingPathHashes = ∅`) the
handler writes all paths unchecked and records no hashes; when resuming
(hash set non-empty) each path's hash is checked against and inserted into
the set before writing, so no written path's hash was initially present and
no two written paths share a hash. -/
theorem claim_C8_amended_dedup_behavior (week0 : List Nat)
    (continuations : List (List (List Nat))) (S : Finset Nat)
    (hS : S.Nonempty) :
    (∀ path : List (List Nat), hashPath path < 2 ^ 32) ∧
    (processOptimal week0 continuations ∅
      = (continuations.map (fun c => week0 :: c), ∅)) ∧
    (∀ p ∈ (processOptimal week0 continuations S).1, hashPath p ∉ S) ∧
    ((processOptimal week0 continuations S).1.Pairwise
      (fun p q => hashPath p ≠ hashPath q)) := by
  refine ⟨hashPath_lt, ?_, ?_⟩
  · unfold processOptimal
    have main : ∀ (l : List (List (List Nat))) (out : List (List (List Nat))),
        l.foldl (fun acc laterWeeks =>
          let fullPath := week0 :: laterWeeks
          if acc.2.card > 0 then
            if hashPath fullPath ∈ acc.2 then acc
            else (acc.1 ++ [fullPath], insert (hashPath fullPath) acc.2)
          else (acc.1 ++ [fullPath], acc.2)) (out, (∅ : Finset Nat))
          = (out ++ l.map (fun c => week0 :: c), ∅) := by
      intro l
      induction l with
      | nil =>
        intro out
        simp
      | cons c l ih =>
        intro out
        rw [List.foldl_cons]
        simp only [Finset.card_empty, Nat.lt_irrefl, if_false]
        rw [ih (out ++ [week0 :: c])]
        simp
    have := main continuations []
    rw [this]
    simp
  · have main : ∀ (l : List (List (List Nat)))
        (out : List (List (List Nat))) (T : Finset Nat),
        T.Nonempty → S ⊆ T →
        (∀ p ∈ out, hashPath p ∈ T) →
        (∀ p ∈ out, hashPath p ∉ S) →
        out.Pairwise (fun p q => hashPath p ≠ hashPath q) →
        (∀ p ∈ (l.foldl (fun acc laterWeeks =>
            let fullPath := week0 :: laterWeeks
            if acc.2.card > 0 then
              if hashPath fullPath ∈ acc.2 then acc
              else (acc.1 ++ [fullPath], insert (hashPath fullPath) acc.2)
            else (acc.1 ++ [fullPath], acc.2)) (out, T)).1,
          hashPath p ∉ S) ∧
        ((l.foldl (fun acc laterWeeks =>
            let fullPath := week0 :: laterWeeks
            if acc.2.card > 0 then
              if hashPath fullPath ∈ acc.2 then acc
              else (acc.1 ++ [fullPath], insert (hashPath fullPath) acc.2)
            else (acc.1 ++ [fullPath], acc.2)) (out, T)).1.Pairwise
          (fun p q => hashPath p ≠ hashPath q)) := by
      intro l
      induction l with
      | nil =>
        intro out T _ _ _ hnotS hpw
        exact ⟨hnotS, hpw⟩
      | cons c l ih =>
        intro out T hT hST hinT hnotS hpw
        rw [List.foldl_cons]
        simp only [Finset.card_pos.mpr hT, if_true]
        by_cases hmem : hashPath (week0 :: c) ∈ T
        · rw [if_pos hmem]
          exact ih out T hT hST hinT hnotS hpw
        · rw [if_neg hmem]
          refine ih (out ++ [week0 :: c]) (insert (hashPath (week0 :: c)) T)
            (Finset.insert_nonempty _ _) ?_ ?_ ?_ ?_
          · exact hST.trans (Finset.subset_insert _ _)
          · intro p hp
            rcases List.mem_append.mp hp with h | h
            · exact Finset.mem_insert_of_mem (hinT p h)
            · rw [List.mem_singleton] at h
              subst h
              exact Finset.mem_insert_self _ _
          · intro p hp
            rcases List.mem_append.mp hp with h | h
            · exact hnotS p h
            · rw [List.mem_singleton] at h
              subst h
              exact fun hc => hmem (hST hc)
          · rw [List.pairwise_append]
            refine ⟨hpw, List.pairwise_singleton _ _, ?_⟩
            intro p hp q hq
            rw [List.mem_singleton] at hq
            subst hq
            exact fun hc => hmem (hc ▸ hinT p hp)
    have := main continuations [] S hS (fun _ h => h)
      (fun p hp => absurd hp (List.not_mem_nil p))
      (fun p hp => absurd hp (List.not_mem_nil p)) List.Pairwise.nil
    exact ⟨this.1, this.2⟩

/-- Witness for the amended C8 at a singleton resume hash set. -/
theorem claim_C8_witness :
    ({5} : Finset Nat).Nonempty ∧
      ∀ p ∈ (processOptimal [0] [[[1]]] ({5} : Finset Nat)).1,
        hashPath p ∉ ({5} : Finset Nat) :=
  ⟨⟨5, by decide⟩,
    (claim_C8_amended_dedup_behavior [0] [[[1]]] {5} ⟨5, by decide⟩).2.2.1⟩

/-! ## Round Tracker replay: `rebuildRoundMatchups` vs the incrementally
maintained state -/

theorem foldl_insert_ifnot (req : Finset Nat) (l : List Nat)
    (s0 : Finset Nat) :
    l.foldl (fun s m => if m ∈ req then s else insert m s) s0
      = s0 ∪ (l.filter (fun m => decide (m ∉ req))).toFinset := by
  have hfun : (fun (s : Finset Nat) (m : Nat) =>
      if m ∈ req then s else insert m s)
      = fun s m => if m ∉ req then insert m s else s := by
    funext s m
    by_cases hm : m ∈ req <;> simp [hm]
  rw [hfun, foldl_insert_if (fun m => m ∉ req)]

theorem toFinset_filter_mem (req : Finset Nat) (l : List Nat) :
    (l.filter (fun m => decide (m ∈ req))).toFinset = l.toFinset ∩ req := by
  ext a
  simp [List.mem_filter, Finset.mem_inter]

theorem toFinset_filter_not_mem (req : Finset Nat) (l : List Nat) :
    (l.filter (fun m => decide (m ∉ req))).toFinset = l.toFinset \ req := by
  ext a
  simp [List.mem_filter, Finset.mem_sdiff]

theorem nSlots_le_nMatchups {n : Nat} (heven : Even n) (hn4 : 4 ≤ n) :
    nSlots n ≤ nMatchups n := by
  obtain ⟨k, hk⟩ := heven
  subst hk
  have hS : nSlots (k + k) = 3 * k := by
    unfold nSlots
    omega
  have hx : (k + k) * ((k + k) - 1) = 2 * (k * ((k + k) - 1)) := by
    ring
  have hM : nMatchups (k + k) = k * ((k + k) - 1) := by
    unfold nMatchups
    rw [hx]
    omega
  rw [hS, hM]
  have hk2 : 2 ≤ k := by omega
  calc 3 * k ≤ (k + k - 1) * k := by
        have : 3 ≤ k + k - 1 := by omega
        exact Nat.mul_le_mul_right k this
    _ = k * ((k + k) - 1) := by ring
  
theorem nMatchups_pos {n : Nat} (hn2 : 2 ≤ n) : 0 < nMatchups n := by
  unfold nMatchups
  have : 2 * 1 ≤ n * (n - 1) := by
    have := Nat.mul_le_mul (by omega : 2 ≤ n) (by omega : 1 ≤ n - 1)
    omega
  omega

theorem floor_of_mul_add {M cr u : Nat} (hM : 0 < M) (hu : u < M) :
    (cr * M + u) / M = cr := by
  rw [Nat.mul_comm cr M, Nat.mul_add_div hM, Nat.div_eq_of_lt hu]
  omega

/-- The coupling between the replayed RoundState `rm` after `w` weeks and
`rebuildRoundMatchups`'s loop accumulator `(map, currentRound, usedInRound)`
at the same point. -/
def Coup (n w : Nat) (rm : RoundState) (acc : RoundState × Nat × Finset Nat) :
    Prop :=
  acc.2.2 ⊆ Finset.range (nMatchups n) ∧
  w * nSlots n = acc.2.1 * nMatchups n + acc.2.2.card ∧
  acc.2.2.card < nMatchups n ∧
  (∀ r, rm r = if r = acc.2.1 then acc.2.2
    else if r < acc.2.1 then acc.1 r else ∅) ∧
  (∀ r, acc.2.1 ≤ r → acc.1 r = ∅)

/-- A week satisfies the constraints `getRoundConstraints` computes for it
on round state `rm`: correct slot count, no repeats, valid ids, all
required matchups present, no excluded matchup (this is exactly what the
enumerator guarantees for accepted weeks). -/
def acceptedWeek (n weekNum : Nat) (rm : RoundState) (week : List Nat) :
    Prop :=
  week.length = nSlots n ∧ week.Nodup ∧ (∀ m ∈ week, m < nMatchups n) ∧
  (∀ m ∈ (getRoundConstraints n (weekNum * nSlots n) rm).requiredMatchups,
    m ∈ week) ∧
  (∀ m ∈ week, ((getRoundConstraints n (weekNum * nSlots n)
    rm).excludeMatchups).testBit (m % 32) = false)

/-- Every week of the path is accepted under the constraints computed at
that week along the replay. -/
def acceptedFrom (n weekNum : Nat) (rm : RoundState) :
    List (List Nat) → Prop
  | [] => True
  | week :: rest => acceptedWeek n weekNum rm week ∧
      acceptedFrom n (weekNum + 1) (advanceWeek n weekNum rm week) rest

/-- One week of the coupling: advancing the replayed state and running one
`rebuildRoundMatchups` loop iteration on an accepted week preserve the
coupling. -/
theorem coup_step {n w : Nat} (heven : Even n) (hn4 : 4 ≤ n)
    {rm : RoundState} {acc : RoundState × Nat × Finset Nat} {week : List Nat}
    (hc : Coup n w rm acc) (hacc : acceptedWeek n w rm week) :
    Coup n (w + 1) (advanceWeek n w rm week) (rebuildStep n acc week) := by
  obtain ⟨map, cr, used⟩ := acc
  obtain ⟨hsub, hcount, hu, hrm, hmap⟩ := hc
  obtain ⟨hwlen, hwnodup, hwval, hwreq, hwexcl⟩ := hacc
  simp only at hsub hcount hu hrm hmap
  have hM : 0 < nMatchups n := nMatchups_pos (by omega)
  have hSM : nSlots n ≤ nMatchups n := nSlots_le_nMatchups heven hn4
  have hS6 : 6 ≤ nSlots n := nSlots_ge_six heven hn4
  have hw1 : (w + 1) * nSlots n = w * nSlots n + nSlots n := by ring
  have hcr1 : (cr + 1) * nMatchups n = cr * nMatchups n + nMatchups n := by
    ring
  have hstart : w * nSlots n / nMatchups n = cr := by
    rw [hcount]
    exact floor_of_mul_add hM hu
  have hrmcr : rm cr = used := by
    rw [hrm cr, if_pos rfl]
  have hweekF : week.toFinset.card = nSlots n := by
    rw [List.toFinset_card_of_nodup hwnodup, hwlen]
  have hweekF_sub : week.toFinset ⊆ Finset.range (nMatchups n) := by
    intro a ha
    rw [List.mem_toFinset] at ha
    exact Finset.mem_range.mpr (hwval a ha)
  have hgcex : (getRoundConstraints n (w * nSlots n) rm).excludeMatchups
      = if nSlots n ≤ nMatchups n - used.card
        then excludeMaskOf used else 0 := by
    simp only [getRoundConstraints]
    rw [hstart, hrmcr]
  have hgcreq : (getRoundConstraints n (w * nSlots n) rm).requiredMatchups
      = if nMatchups n - used.card ≤ nSlots n
        then (Finset.range (nMatchups n)).filter (fun m => m ∉ used)
        else ∅ := by
    simp only [getRoundConstraints]
    rw [hstart, hrmcr]
    by_cases h : nMatchups n - used.card ≤ nSlots n
    · rw [if_pos h, if_pos (⟨h, by omega⟩ :
        nMatchups n - used.card ≤ nSlots n ∧ nMatchups n - used.card > 0)]
    · rw [if_neg h, if_neg (by omega :
        ¬ (nMatchups n - used.card ≤ nSlots n ∧
          nMatchups n - used.card > 0))]
  have hadvdef : advanceWeek n w rm week
      = if nMatchups n - used.card ≥ nSlots n then
          Function.update rm cr
            (week.foldl (fun s m => insert m s) used)
        else
          Function.update
            (Function.update rm cr
              (week.foldl
                (fun s m =>
                  if m ∈ (getRoundConstraints n (w * nSlots n)
                    rm).requiredMatchups then insert m s else s) used))
            (cr + 1)
            (week.foldl
              (fun s m =>
                if m ∈ (getRoundConstraints n (w * nSlots n)
                  rm).requiredMatchups then s else insert m s)
              ((Function.update rm cr
                (week.foldl
                  (fun s m =>
                    if m ∈ (getRoundConstraints n (w * nSlots n)
                      rm).requiredMatchups then insert m s else s) used))
                (cr + 1))) := by
    unfold advanceWeek updateRoundMatchups
    simp only
    rw [hstart, hrmcr]
  by_cases hfit : nSlots n ≤ nMatchups n - used.card
  · -- the whole week fits in the current round
    have hdisj : Disjoint used week.toFinset := by
      rw [Finset.disjoint_left]
      intro a ha haw
      have hbit : (excludeMaskOf used).testBit (a % 32) = true :=
        testBit_excludeMaskOf.mpr ⟨a, ha, rfl⟩
      have hfalse := hwexcl a (List.mem_toFinset.mp haw)
      rw [hgcex, if_pos hfit, hbit] at hfalse
      cases hfalse
    have hcardu : (used ∪ week.toFinset).card
        = used.card + nSlots n := by
      rw [Finset.card_union_of_disjoint hdisj, hweekF]
    have hadv : advanceWeek n w rm week
        = Function.update rm cr (used ∪ week.toFinset) := by
      rw [hadvdef, if_pos (by omega), foldl_insert_eq]
    by_cases hgt : nSlots n < nMatchups n - used.card
    · -- strictly inside the round: rebuild also just accumulates
      have hrb : rebuildStep n (map, cr, used) week
          = (map, cr, used ∪ week.toFinset) := by
        unfold rebuildStep
        simp only
        rw [if_neg (by omega), foldl_insert_eq]
      rw [hadv, hrb]
      refine ⟨?_, ?_, ?_, ?_, ?_⟩
      · simp only
        exact Finset.union_subset hsub hweekF_sub
      · simp only
        rw [hcardu]
        omega
      · simp only
        rw [hcardu]
        omega
      · intro r
        simp only
        rw [Function.update_apply, hrm r]
        by_cases h : r = cr
        · rw [if_pos h, if_pos h]
        · rw [if_neg h, if_neg h, if_neg h]
      · intro r hr
        exact hmap r hr
    · -- exact boundary: remaining == S, the week is exactly the complement
      have hrem : nMatchups n - used.card = nSlots n := by omega
      have hreqF : (getRoundConstraints n (w * nSlots n) rm).requiredMatchups
          = (Finset.range (nMatchups n)).filter (fun m => m ∉ used) := by
        rw [hgcreq, if_pos (by omega)]
      have hfilter_sdiff : (Finset.range (nMatchups n)).filter
          (fun m => m ∉ used) = Finset.range (nMatchups n) \ used := by
        ext a
        simp [Finset.mem_sdiff]
      have hreq_card : ((Finset.range (nMatchups n)).filter
          (fun m => m ∉ used)).card = nMatchups n - used.card := by
        rw [hfilter_sdiff, Finset.card_sdiff hsub, Finset.card_range]
      have hreq_sub : (Finset.range (nMatchups n)).filter (fun m => m ∉ used)
          ⊆ week.toFinset := by
        intro a ha
        rw [List.mem_toFinset]
        exact hwreq a (hreqF ▸ ha)
      have hreq_eq_week : (Finset.range (nMatchups n)).filter
          (fun m => m ∉ used) = week.toFinset := by
        refine Finset.eq_of_subset_of_card_le hreq_sub ?_
        rw [hweekF, hreq_card, hrem]
      have hinter : week.toFinset
          ∩ ((Finset.range (nMatchups n)).filter (fun m => m ∉ used))
          = (Finset.range (nMatchups n)).filter (fun m => m ∉ used) := by
        rw [hreq_eq_week, Finset.inter_self]
      have hused1 : used ∪ week.toFinset = Finset.range (nMatchups n) := by
        rw [← hreq_eq_week, hfilter_sdiff]
        exact Finset.union_sdiff_of_subset hsub
      have hused1f : week.foldl
          (fun s m => if m ∈ (Finset.range (nMatchups n)).filter
            (fun m' => m' ∉ used) then insert m s else s) used
          = Finset.range (nMatchups n) := by
        rw [foldl_insert_if
          (fun m => m ∈ (Finset.range (nMatchups n)).filter
            (fun m' => m' ∉ used)), toFinset_filter_mem, hinter,
          hfilter_sdiff]
        exact Finset.union_sdiff_of_subset hsub
      have hsecond : week.foldl
          (fun s m => if m ∈ (Finset.range (nMatchups n)).filter
            (fun m' => m' ∉ used) then s else insert m s) (∅ : Finset Nat)
          = (∅ : Finset Nat) := by
        rw [foldl_insert_ifnot, toFinset_filter_not_mem, hreq_eq_week,
          Finset.sdiff_self, Finset.union_empty]
      have hrb : rebuildStep n (map, cr, used) week
          = (Function.update map cr (Finset.range (nMatchups n)), cr + 1,
              (∅ : Finset Nat)) := by
        simp only [rebuildStep]
        rw [if_pos (by omega : nMatchups n - used.card ≤ nSlots n)]
        rw [hused1f, if_pos (Finset.card_range (nMatchups n)), hsecond]
      rw [hadv, hrb]
      refine ⟨?_, ?_, ?_, ?_, ?_⟩
      · simp only
        exact Finset.empty_subset _
      · simp only
        rw [Finset.card_empty]
        omega
      · simp only
        rw [Finset.card_empty]
        omega
      · intro r
        simp only
        rw [Function.update_apply, Function.update_apply, hused1]
        by_cases h1 : r = cr + 1
        · rw [if_pos h1, if_neg (by omega : ¬ r = cr), hrm r,
            if_neg (by omega : ¬ r = cr), if_neg (by omega : ¬ r < cr)]
        · rw [if_neg h1]
          by_cases h2 : r = cr
          · rw [if_pos h2, if_pos (by omega : r < cr + 1), if_pos h2]
          · rw [if_neg h2, hrm r, if_neg h2]
            by_cases h3 : r < cr
            · rw [if_pos h3, if_pos (by omega : r < cr + 1), if_neg h2]
            · rw [if_neg h3, if_neg (by omega : ¬ r < cr + 1)]
      · intro r hr
        simp only at hr ⊢
        rw [Function.update_apply, if_neg (by omega : ¬ r = cr)]
        exact hmap r (by omega)
  · -- the week straddles the round boundary: remaining < S
    have hrem_pos : 0 < nMatchups n - used.card := by omega
    have hreqF : (getRoundConstraints n (w * nSlots n) rm).requiredMatchups
        = (Finset.range (nMatchups n)).filter (fun m => m ∉ used) := by
      rw [hgcreq, if_pos (by omega)]
    have hfilter_sdiff : (Finset.range (nMatchups n)).filter
        (fun m => m ∉ used) = Finset.range (nMatchups n) \ used := by
      ext a
      simp [Finset.mem_sdiff]
    have hreq_card : ((Finset.range (nMatchups n)).filter
        (fun m => m ∉ used)).card = nMatchups n - used.card := by
      rw [hfilter_sdiff, Finset.card_sdiff hsub, Finset.card_range]
    have hreq_sub : (Finset.range (nMatchups n)).filter (fun m => m ∉ used)
        ⊆ week.toFinset := by
      intro a ha
      rw [List.mem_toFinset]
      exact hwreq a (hreqF ▸ ha)
    have hinter : week.toFinset
        ∩ ((Finset.range (nMatchups n)).filter (fun m => m ∉ used))
        = (Finset.range (nMatchups n)).filter (fun m => m ∉ used) := by
      ext a
      simp only [Finset.mem_inter]
      constructor
      · rintro ⟨_, h⟩
        exact h
      · intro h
        exact ⟨hreq_sub h, h⟩
    have hused1 : used ∪ ((Finset.range (nMatchups n)).filter
        (fun m => m ∉ used)) = Finset.range (nMatchups n) := by
      rw [hfilter_sdiff]
      exact Finset.union_sdiff_of_subset hsub
    have hused1f : week.foldl
        (fun s m => if m ∈ (Finset.range (nMatchups n)).filter
          (fun m' => m' ∉ used) then insert m s else s) used
        = Finset.range (nMatchups n) := by
      rw [foldl_insert_if
        (fun m => m ∈ (Finset.range (nMatchups n)).filter
          (fun m' => m' ∉ used)), toFinset_filter_mem, hinter]
      exact hused1
    have hextras_card : (week.toFinset
        \ ((Finset.range (nMatchups n)).filter (fun m => m ∉ used))).card
        = nSlots n - (nMatchups n - used.card) := by
      rw [Finset.card_sdiff hreq_sub, hweekF, hreq_card]
    have hsecondf : ∀ s0 : Finset Nat, week.foldl
        (fun s m => if m ∈ (Finset.range (nMatchups n)).filter
          (fun m' => m' ∉ used) then s else insert m s) s0
        = s0 ∪ (week.toFinset
          \ ((Finset.range (nMatchups n)).filter (fun m => m ∉ used))) := by
      intro s0
      rw [foldl_insert_ifnot, toFinset_filter_not_mem]
    have hrb : rebuildStep n (map, cr, used) week
        = (Function.update map cr (Finset.range (nMatchups n)), cr + 1,
            week.toFinset
              \ ((Finset.range (nMatchups n)).filter (fun m => m ∉ used))) := by
      simp only [rebuildStep]
      rw [if_pos (by omega : nMatchups n - used.card ≤ nSlots n)]
      rw [hused1f, if_pos (Finset.card_range (nMatchups n)), hsecondf,
        Finset.empty_union]
    have hadv : advanceWeek n w rm week
        = Function.update
            (Function.update rm cr (Finset.range (nMatchups n)))
            (cr + 1)
            (week.toFinset
              \ ((Finset.range (nMatchups n)).filter (fun m => m ∉ used))) := by
      rw [hadvdef, if_neg (by omega), hreqF]
      rw [foldl_insert_if
        (fun m => m ∈ (Finset.range (nMatchups n)).filter
          (fun m' => m' ∉ used)), toFinset_filter_mem, hinter, hused1]
      rw [Function.update_noteq (by omega : cr + 1 ≠ cr), hrm (cr + 1),
        if_neg (by omega : ¬ cr + 1 = cr), if_neg (by omega : ¬ cr + 1 < cr),
        hsecondf, Finset.empty_union]
    rw [hadv, hrb]
    refine ⟨?_, ?_, ?_, ?_, ?_⟩
    · simp only
      exact Finset.Subset.trans Finset.sdiff_subset hweekF_sub
    · simp only
      rw [hextras_card]
      omega
    · simp only
      rw [hextras_card]
      omega
    · intro r
      simp only
      rw [Function.update_apply, Function.update_apply, Function.update_apply]
      by_cases h1 : r = cr + 1
      · rw [if_pos h1, if_pos h1]
      · rw [if_neg h1, if_neg h1]
        by_cases h2 : r = cr
        · rw [if_pos h2, if_pos (by omega : r < cr + 1), if_pos h2]
        · rw [if_neg h2, if_neg h2, hrm r, if_neg h2]
          by_cases h3 : r < cr
          · rw [if_pos h3, if_pos (by omega : r < cr + 1)]
          · rw [if_neg h3, if_neg (by omega : ¬ r < cr + 1)]
    · intro r hr
      simp only at hr ⊢
      rw [Function.update_apply, if_neg (by omega : ¬ r = cr)]
      exact hmap r (by omega)

/-- The coupling is preserved along any accepted path: replaying
`advanceWeek` and folding `rebuildStep` stay coupled. -/
theorem coup_fold {n : Nat} (heven : Even n) (hn4 : 4 ≤ n)
    (path : List (List Nat)) :
    ∀ {w : Nat} {rm : RoundState} {acc : RoundState × Nat × Finset Nat},
      Coup n w rm acc → acceptedFrom n w rm path →
      Coup n (w + path.length) (replayFrom n w rm path)
        (path.foldl (rebuildStep n) acc) := by
  induction path with
  | nil =>
    intro w rm acc hc _
    simpa using hc
  | cons week rest ih =>
    intro w rm acc hc hacc
    obtain ⟨hw, hrest⟩ := hacc
    have h2 := ih (coup_step heven hn4 hc hw) hrest
    simp only [List.length_cons, List.foldl_cons, replayFrom]
    have harith : w + (rest.length + 1) = w + 1 + rest.length := by omega
    rw [harith]
    exact h2

/-- The final flush of `rebuildRoundMatchups` (write the partial round back
only when non-empty) recovers exactly the replayed state from the coupling. -/
theorem coup_final {n w : Nat} {rm : RoundState}
    {acc : RoundState × Nat × Finset Nat} (hc : Coup n w rm acc) :
    (if acc.2.2.card > 0 then Function.update acc.1 acc.2.1 acc.2.2
     else acc.1) = rm := by
  obtain ⟨hsub, hcount, hu, hrm, hmap⟩ := hc
  funext r
  by_cases hpos : acc.2.2.card > 0
  · rw [if_pos hpos, Function.update_apply, hrm r]
    by_cases h1 : r = acc.2.1
    · rw [if_pos h1, if_pos h1]
    · rw [if_neg h1, if_neg h1]
      by_cases h2 : r < acc.2.1
      · rw [if_pos h2]
      · rw [if_neg h2]
        exact hmap r (by omega)
  · rw [if_neg hpos, hrm r]
    have hempty : acc.2.2 = ∅ := Finset.card_eq_zero.mp (by omega)
    by_cases h1 : r = acc.2.1
    · rw [if_pos h1, hempty]
      exact hmap r (by omega)
    · rw [if_neg h1]
      by_cases h2 : r < acc.2.1
      · rw [if_pos h2]
      · rw [if_neg h2]
        exact hmap r (by omega)

/-- C5: for every path whose weeks were each accepted under the constraints
computed at that week, rebuilding the round state from scratch
(`rebuildRoundMatchups`) yields the same `RoundState` as starting from the
empty state and folding the incremental update (`updateRoundMatchups` with
each week's required set taken from `getRoundConstraints` at that week)
over the weeks in order. -/
theorem claim_C5_rebuild_matches_replay {n : Nat} (heven : Even n)
    (hn4 : 4 ≤ n) (path : List (List Nat))
    (hacc : acceptedFrom n 0 (fun _ => (∅ : Finset Nat)) path) :
    rebuildRoundMatchups n path = replayRoundMatchups n path := by
  have hinit : Coup n 0 (fun _ => (∅ : Finset Nat))
      ((fun _ => (∅ : Finset Nat)), 0, (∅ : Finset Nat)) := by
    refine ⟨Finset.empty_subset _, by simp, nMatchups_pos (by omega), ?_, ?_⟩
    · intro r
      show (∅ : Finset Nat)
        = if r = 0 then (∅ : Finset Nat)
          else if r < 0 then (∅ : Finset Nat) else (∅ : Finset Nat)
      by_cases h : r = 0
      · rw [if_pos h]
      · rw [if_neg h, if_neg (by omega : ¬ r < 0)]
    · intro r _
      rfl
  have hfin := coup_final (coup_fold heven hn4 path hinit hacc)
  unfold rebuildRoundMatchups replayRoundMatchups
  exact hfin

/-- Witness for C5 at `n = 4` on the first week the enumerator accepts. -/
theorem claim_C5_witness :
    acceptedFrom 4 0 (fun _ => (∅ : Finset Nat)) [[0, 1, 4, 2, 3, 5]] ∧
    rebuildRoundMatchups 4 [[0, 1, 4, 2, 3, 5]]
      = replayRoundMatchups 4 [[0, 1, 4, 2, 3, 5]] := by
  have h : acceptedFrom 4 0 (fun _ => (∅ : Finset Nat))
      [[0, 1, 4, 2, 3, 5]] := by
    simp only [acceptedFrom, acceptedWeek]
    refine ⟨⟨by decide, by decide, by decide, by decide, by decide⟩, trivial⟩
  exact ⟨h, claim_C5_rebuild_matches_replay (by decide) (by decide) _ h⟩

/-! ### Tree store (`src/lib/tree-format.mjs`)

JS strings are modelled as `List Char`, and the file the writer hands to
the reader as the list of its lines: every `#stream.write` call of the
writer emits exactly one newline-terminated line and `readline` hands the
lines back one at a time. -/

/-- The ASCII whitespace that `String.prototype.trim()` strips in this
format (the format only ever produces spaces and tabs). -/
def isWS (c : Char) : Bool := c = ' ' || c = '\t' || c = '\n' || c = '\r'

/-- `s.trim()`. -/
def trimChars (l : List Char) : List Char :=
  ((l.dropWhile isWS).reverse.dropWhile isWS).reverse

/-- Decimal rendering of one digit-at-a-time division; `fuel` bounds the
recursion depth (any fuel past the digit count gives the same answer). -/
def natCharsAux : Nat → Nat → List Char
  | 0, _ => []
  | fuel + 1, n =>
    if n = 0 then []
    else natCharsAux fuel (n / 10) ++ [Char.ofNat (48 + n % 10)]

/-- `String(n)` for a natural number: decimal digits, most significant
first. -/
def natChars (n : Nat) : List Char :=
  if n = 0 then ['0'] else natCharsAux (n + 1) n

/-- `parts.join(',')`. -/
def joinComma : List (List Char) → List Char
  | [] => []
  | [p] => p
  | p :: q :: ps => p ++ ',' :: joinComma (q :: ps)

/-- `schedule.join(',')`. -/
def scheduleChars (s : List Nat) : List Char := joinComma (s.map natChars)

/-- One body line of the tree format:
`'\t'.repeat(depth) + schedule.join(',')`, as emitted by
`TreeWriter.writePath` (and `writeNode`). -/
def nodeLineChars (depth : Nat) (s : List Nat) : List Char :=
  List.replicate depth '\t' ++ scheduleChars s

/-- `s.padEnd(w, ' ')`. -/
def padEndChars (l : List Char) (w : Nat) : List Char :=
  l ++ List.replicate (w - l.length) ' '

/-- The line `TreeWriter.writeHeader(teams, weeks, count)` emits:
`# teams=T weeks=W count=` followed by `String(count) + ' (partial)'`
padded with spaces to `COUNT_WIDTH + PARTIAL_RESERVE = 23` characters. -/
def headerChars (teams weeks count : Nat) : List Char :=
  "# teams=".data ++ natChars teams ++ " weeks=".data ++ natChars weeks
    ++ " count=".data ++ padEndChars (natChars count ++ " (partial)".data) 23

/-- The `while` loop at the top of `writePath`: how many leading entries
the new path shares with `#previousPath` (`arraysEqual` elementwise). -/
def commonDepth : List (List Nat) → List (List Nat) → Nat
  | a :: as, b :: bs => if a = b then commonDepth as bs + 1 else 0
  | _, _ => 0

/-- `TreeWriter.writePath`: the state is `(#previousPath, lines written so
far)`; only the suffix of the new path past the common prefix is
emitted, one line per depth. -/
def writePath (st : List (List Nat) × List (List Char))
    (path : List (List Nat)) : List (List Nat) × List (List Char) :=
  let cd := commonDepth st.1 path
  (path,
   st.2 ++ (List.range' cd (path.length - cd)).map
     (fun d => nodeLineChars d (path.getD d [])))

/-- `writeHeader(teams, weeks)` followed by `writePath` for each path in
order: the whole file as a list of lines. -/
def writtenFile (teams weeks : Nat) (paths : List (List (List Nat))) :
    List (List Char) :=
  headerChars teams weeks 0 :: (paths.foldl writePath ([], [])).2

/-- Longest digit prefix (the characters `parseInt` consumes). -/
def digitsPrefix : List Char → List Char
  | [] => []
  | c :: rest => if c.isDigit then c :: digitsPrefix rest else []

/-- Value of a most-significant-first digit string. -/
def digitsVal (l : List Char) : Nat :=
  l.foldl (fun a c => a * 10 + (c.toNat - 48)) 0

/-- `parseInt(token, 10)` on an already-trimmed token (`none` models NaN,
which is what `Number.isFinite` rejects): an optional sign followed by at
least one digit, value of the longest digit prefix. -/
def parseIntChars (l : List Char) : Option Int :=
  let core := fun (m : List Char) =>
    if digitsPrefix m = [] then none
    else some ((digitsVal (digitsPrefix m) : Int))
  match l with
  | [] => none
  | c :: rest =>
    if c = '-' then (core rest).map (fun v => -v)
    else if c = '+' then core rest
    else core (c :: rest)

/-- `content.split(',')` (JS semantics: `''` splits to `['']`). -/
def splitComma : List Char → List (List Char)
  | [] => [[]]
  | c :: rest =>
    if c = ',' then [] :: splitComma rest
    else
      match splitComma rest with
      | s :: ss => (c :: s) :: ss
      | [] => [[c]]

/-- The parse loop of `TreeReader.paths`: split on commas, trim each part;
an empty token or a token that does not parse to a finite number makes the
whole line invalid. -/
def parseSchedule (content : List Char) : Option (List Int) :=
  (splitComma content).mapM fun part =>
    let token := trimChars part
    if token = [] then none else parseIntChars token

/-- `line.startsWith('#')`. -/
def startsWithHash : List Char → Bool
  | [] => false
  | c :: _ => c == '#'

/-- The depth loop `while (line[depth] === '\t') depth++`. -/
def countTabs : List Char → Nat
  | [] => 0
  | c :: rest => if c = '\t' then countTabs rest + 1 else 0

/-- The in-flight state of the `TreeReader.paths` loop: the depth stack,
the paths yielded so far, the `warnedInvalidLine` flag, and the number of
`console.warn` calls made. -/
structure ReaderState where
  stack : List (List Int)
  out : List (List (List Int))
  warned : Bool
  warnCount : Nat

/-- One iteration of the `for await (const line of rl)` loop of
`TreeReader.paths`: skip header/blank lines, count tabs, skip marker
lines, skip (with a once-per-file warning) lines that fail to parse, and
otherwise pop the stack to the line's depth, push the schedule, and yield
a copy of the stack when it reaches `weeksInFile`. -/
def readerStep (weeksInFile : Nat) (st : ReaderState) (line : List Char) :
    ReaderState :=
  if startsWithHash line = true ∨ trimChars line = [] then st
  else
    let depth := countTabs line
    let content := trimChars (line.drop depth)
    if content = ['…'] ∨ content = ['✅'] ∨ content = [] then st
    else
      match parseSchedule content with
      | none =>
          if st.warned then st
          else ⟨st.stack, st.out, true, st.warnCount + 1⟩
      | some schedule =>
          let stack1 := st.stack.take depth ++ [schedule]
          ⟨stack1,
           if stack1.length = weeksInFile then st.out ++ [stack1] else st.out,
           st.warned, st.warnCount⟩

/-- Run the reader loop over a whole file. -/
def readerRun (weeksInFile : Nat) (lines : List (List Char)) : ReaderState :=
  lines.foldl (readerStep weeksInFile) ⟨[], [], false, 0⟩

/-- First match of the regex `key(\d+)`: scan for the first position where
`key` occurs followed by at least one digit and return the value of the
maximal digit run there. -/
def matchKeyNum (key : List Char) : List Char → Option Nat
  | [] => none
  | c :: rest =>
    if key.isPrefixOf (c :: rest)
        && !(digitsPrefix ((c :: rest).drop key.length)).isEmpty then
      some (digitsVal (digitsPrefix ((c :: rest).drop key.length)))
    else matchKeyNum key rest

/-- `line.includes(key)`. -/
def containsSub (key : List Char) : List Char → Bool
  | [] => key.isEmpty
  | c :: rest => key.isPrefixOf (c :: rest) || containsSub key rest

structure HeaderInfo where
  teams : Nat
  weeks : Nat
  count : Nat
  isPartial : Bool

/-- `parseHeader(line)`: regex matches for `teams=`, `weeks=`, `count=`
(defaulting to 0) and the `(partial)` marker. -/
def parseHeader (line : List Char) : HeaderInfo :=
  ⟨(matchKeyNum "teams=".data line).getD 0,
   (matchKeyNum "weeks=".data line).getD 0,
   (matchKeyNum "count=".data line).getD 0,
   containsSub "(partial)".data line⟩

/-- `TreeReader.paths()`: `weeksInFile` comes from the header (the first
line, `readHeaderFromFile`), then the whole file is scanned and the yields
collected in order. -/
def treeReaderPaths (lines : List (List Char)) : List (List (List Int)) :=
  (readerRun (parseHeader (lines.headD [])).weeks lines).out

/-- A schedule, as the reader returns it (JS numbers can be negative, so
parsed entries are integers). -/
def castS (s : List Nat) : List Int := s.map Int.ofNat

def castPath (p : List (List Nat)) : List (List Int) := p.map castS

/-- A line the reader's parse loop rejects: not skipped as header/blank or
marker, but with a part that trims to the empty string or fails
`parseInt`. -/
def LineInvalid (line : List Char) : Prop :=
  ¬(startsWithHash line = true ∨ trimChars line = []) ∧
  ¬(trimChars (line.drop (countTabs line)) = ['…'] ∨
    trimChars (line.drop (countTabs line)) = ['✅'] ∨
    trimChars (line.drop (countTabs line)) = []) ∧
  parseSchedule (trimChars (line.drop (countTabs line))) = none

theorem digit_ne {c d : Char} (h : c.isDigit = true)
    (hd : d.isDigit = false) : c ≠ d := by
  intro he
  rw [he, hd] at h
  cases h

theorem char_digit_lt10 : ∀ r, r < 10 →
    (Char.ofNat (48 + r)).isDigit = true := by decide

theorem natCharsAux_digits : ∀ fuel n, ∀ c ∈ natCharsAux fuel n,
    c.isDigit = true := by
  intro fuel
  induction fuel with
  | zero => intro n c hc; cases hc
  | succ fuel ih =>
    intro n c hc
    unfold natCharsAux at hc
    by_cases h : n = 0
    · rw [if_pos h] at hc
      cases hc
    · rw [if_neg h] at hc
      rcases List.mem_append.mp hc with h1 | h1
      · exact ih _ c h1
      · rcases List.mem_singleton.mp h1 with rfl
        exact char_digit_lt10 _ (Nat.mod_lt _ (by omega))

theorem natChars_digits {n : Nat} : ∀ c ∈ natChars n, c.isDigit = true := by
  intro c hc
  unfold natChars at hc
  by_cases h : n = 0
  · rw [if_pos h] at hc
    rcases List.mem_singleton.mp hc with rfl
    decide
  · rw [if_neg h] at hc
    exact natCharsAux_digits _ _ c hc

theorem natChars_ne_nil {n : Nat} : natChars n ≠ [] := by
  unfold natChars
  by_cases h : n = 0
  · rw [if_pos h]
    simp
  · rw [if_neg h]
    unfold natCharsAux
    rw [if_neg h]
    simp

theorem natChars_head {n : Nat} :
    ∃ c r, natChars n = c :: r ∧ c.isDigit = true := by
  rcases hl : natChars n with _ | ⟨c, r⟩
  · exact absurd hl natChars_ne_nil
  · exact ⟨c, r, rfl, natChars_digits c (hl ▸ List.mem_cons_self _ _)⟩

theorem digitsVal_append_one (l : List Char) (c : Char) :
    digitsVal (l ++ [c]) = digitsVal l * 10 + (c.toNat - 48) := by
  unfold digitsVal
  rw [List.foldl_append]
  rfl

theorem char_toNat_digit : ∀ r, r < 10 →
    (Char.ofNat (48 + r)).toNat - 48 = r := by decide

theorem natCharsAux_val : ∀ fuel n, n ≤ fuel →
    digitsVal (natCharsAux fuel n) = if n = 0 then 0 else n := by
  intro fuel
  induction fuel with
  | zero =>
    intro n hn
    have : n = 0 := by omega
    subst this
    rfl
  | succ fuel ih =>
    intro n hn
    unfold natCharsAux
    by_cases h : n = 0
    · rw [if_pos h, if_pos h]
      rfl
    · have hdiv : n / 10 < n := Nat.div_lt_self (by omega) (by omega)
      rw [if_neg h, if_neg h, digitsVal_append_one,
        char_toNat_digit _ (Nat.mod_lt _ (by omega)),
        ih (n / 10) (by omega)]
      by_cases h10 : n / 10 = 0
      · rw [if_pos h10]
        omega
      · rw [if_neg h10]
        omega

theorem natChars_val {n : Nat} : digitsVal (natChars n) = n := by
  unfold natChars
  by_cases h : n = 0
  · rw [if_pos h, h]
    rfl
  · rw [if_neg h, natCharsAux_val (n + 1) n (by omega), if_neg h]

theorem dropWhile_eq_self {p : Char → Bool} {l : List Char}
    (h : ∀ c ∈ l, p c = false) : l.dropWhile p = l := by
  cases l with
  | nil => rfl
  | cons c r =>
    rw [List.dropWhile_cons, if_neg]
    rw [h c (List.mem_cons_self _ _)]
    simp

theorem trimChars_eq_self {l : List Char} (h : ∀ c ∈ l, isWS c = false) :
    trimChars l = l := by
  unfold trimChars
  rw [dropWhile_eq_self h, dropWhile_eq_self, List.reverse_reverse]
  intro c hc
  exact h c (List.mem_reverse.mp hc)

theorem trimChars_ne_nil {l : List Char} {c : Char} (hc : c ∈ l)
    (h : isWS c = false) : trimChars l ≠ [] := by
  intro hnil
  unfold trimChars at hnil
  rw [List.reverse_eq_nil_iff, List.dropWhile_eq_nil_iff] at hnil
  have hdrop : ∀ x ∈ l.dropWhile isWS, isWS x = true := by
    intro x hx
    exact hnil x (List.mem_reverse.mpr hx)
  have hsplit := List.takeWhile_append_dropWhile (p := isWS) (l := l)
  rw [← hsplit] at hc
  rcases List.mem_append.mp hc with h1 | h1
  · rw [List.mem_takeWhile_imp h1] at h
    cases h
  · rw [hdrop c h1] at h
    cases h

theorem digit_not_ws {c : Char} (h : c.isDigit = true) : isWS c = false := by
  unfold isWS
  by_contra hws
  rw [Bool.not_eq_false] at hws
  simp only [Bool.or_eq_true, decide_eq_true_eq] at hws
  rcases hws with ((rfl | rfl) | rfl) | rfl <;> cases h

theorem comma_not_ws : isWS ',' = false := by decide

theorem splitComma_cons (c : Char) (r : List Char) :
    splitComma (c :: r)
      = if c = ',' then [] :: splitComma r
        else match splitComma r with
          | s :: ss => (c :: s) :: ss
          | [] => [[c]] := rfl

theorem splitComma_no_comma {p : List Char} (h : ',' ∉ p) :
    splitComma p = [p] := by
  induction p with
  | nil => rfl
  | cons c r ih =>
    have hcne : ¬ c = ',' :=
      fun hc => h (by rw [hc]; exact List.mem_cons_self _ _)
    rw [splitComma_cons, if_neg hcne,
      ih (fun hc => h (List.mem_cons_of_mem _ hc))]

theorem splitComma_append {p r : List Char} (h : ',' ∉ p) :
    splitComma (p ++ ',' :: r) = p :: splitComma r := by
  induction p with
  | nil => rfl
  | cons c q ih =>
    have hcne : ¬ c = ',' :=
      fun hc => h (by rw [hc]; exact List.mem_cons_self _ _)
    show splitComma (c :: (q ++ ',' :: r)) = (c :: q) :: splitComma r
    rw [splitComma_cons, if_neg hcne,
      ih (fun hc => h (List.mem_cons_of_mem _ hc))]

theorem splitComma_join {ps : List (List Char)}
    (h : ∀ p ∈ ps, ',' ∉ p) (hne : ps ≠ []) :
    splitComma (joinComma ps) = ps := by
  induction ps with
  | nil => exact absurd rfl hne
  | cons p qs ih =>
    cases qs with
    | nil =>
      show splitComma (joinComma [p]) = [p]
      unfold joinComma
      exact splitComma_no_comma (h p (List.mem_cons_self _ _))
    | cons q qs' =>
      show splitComma (joinComma (p :: q :: qs')) = p :: q :: qs'
      unfold joinComma
      rw [splitComma_append (h p (List.mem_cons_self _ _)),
        ih (fun x hx => h x (List.mem_cons_of_mem _ hx)) (by simp)]

theorem digitsPrefix_all_append {l r : List Char}
    (h : ∀ c ∈ l, c.isDigit = true) :
    digitsPrefix (l ++ r) = l ++ digitsPrefix r := by
  induction l with
  | nil => rfl
  | cons c q ih =>
    show digitsPrefix (c :: (q ++ r)) = c :: (q ++ digitsPrefix r)
    rw [show digitsPrefix (c :: (q ++ r))
        = if c.isDigit then c :: digitsPrefix (q ++ r) else [] from rfl,
      if_pos (h c (List.mem_cons_self _ _)),
      ih (fun x hx => h x (List.mem_cons_of_mem _ hx))]

theorem digitsPrefix_all {l : List Char} (h : ∀ c ∈ l, c.isDigit = true) :
    digitsPrefix l = l := by
  have h2 := digitsPrefix_all_append (l := l) (r := []) h
  rw [show digitsPrefix ([] : List Char) = [] from rfl,
    List.append_nil] at h2
  exact h2

theorem parseIntChars_natChars {n : Nat} :
    parseIntChars (natChars n) = some ((n : Int)) := by
  obtain ⟨c, r, hcr, hdig⟩ := natChars_head (n := n)
  rw [hcr]
  unfold parseIntChars
  simp only
  rw [if_neg (digit_ne hdig (by decide)), if_neg (digit_ne hdig (by decide)),
    if_neg, digitsPrefix_all, ← hcr, natChars_val]
  · rw [← hcr]
    exact fun x hx => natChars_digits x hx
  · rw [show (c :: r) = natChars n from hcr.symm,
      digitsPrefix_all (fun x hx => natChars_digits x hx)]
    exact natChars_ne_nil

theorem mapM_option_some {α β : Type} (f : α → Option β) (g : α → β)
    (l : List α) (h : ∀ a ∈ l, f a = some (g a)) :
    l.mapM f = some (l.map g) := by
  induction l with
  | nil => rfl
  | cons a l ih =>
    rw [List.mapM_cons, h a (List.mem_cons_self _ _),
      ih (fun b hb => h b (List.mem_cons_of_mem _ hb))]
    rfl

theorem natChars_no_comma {n : Nat} : ',' ∉ natChars n := by
  intro hc
  exact absurd rfl (digit_ne (natChars_digits ',' hc) (by decide))

theorem parseSchedule_scheduleChars {s : List Nat} (hs : s ≠ []) :
    parseSchedule (scheduleChars s) = some (castS s) := by
  have hcomma : ∀ p ∈ s.map natChars, ',' ∉ p := by
    intro p hp
    rcases List.mem_map.mp hp with ⟨m, _, rfl⟩
    exact natChars_no_comma
  have hone : ∀ a ∈ s.map natChars,
      (let token := trimChars a
       if token = [] then none else parseIntChars token)
        = some ((digitsVal a : Nat) : Int) := by
    intro a ha
    rcases List.mem_map.mp ha with ⟨m, _, rfl⟩
    simp only
    rw [trimChars_eq_self (fun c hc => digit_not_ws (natChars_digits c hc)),
      if_neg natChars_ne_nil, parseIntChars_natChars, natChars_val]
  have hmap := mapM_option_some _ _ _ hone
  have hgoal : (s.map natChars).map (fun a => ((digitsVal a : Nat) : Int))
      = castS s := by
    rw [List.map_map]
    unfold castS
    refine List.map_congr_left ?_
    intro m _
    simp only [Function.comp]
    rw [natChars_val]
    rfl
  unfold parseSchedule scheduleChars
  rw [splitComma_join hcomma (by simpa using hs)]
  exact hmap.trans (congrArg some hgoal)

theorem joinComma_sub {ps : List (List Char)} {c : Char}
    (hc : c ∈ joinComma ps) : c = ',' ∨ ∃ p ∈ ps, c ∈ p := by
  induction ps with
  | nil => cases hc
  | cons p qs ih =>
    cases qs with
    | nil =>
      exact Or.inr ⟨p, List.mem_cons_self _ _, hc⟩
    | cons q qs' =>
      rw [show joinComma (p :: q :: qs') = p ++ ',' :: joinComma (q :: qs')
        from rfl] at hc
      rcases List.mem_append.mp hc with h1 | h1
      · exact Or.inr ⟨p, List.mem_cons_self _ _, h1⟩
      · rcases List.mem_cons.mp h1 with rfl | h2
        · exact Or.inl rfl
        · rcases ih h2 with h3 | ⟨p', hp', hcp'⟩
          · exact Or.inl h3
          · exact Or.inr ⟨p', List.mem_cons_of_mem _ hp', hcp'⟩

theorem scheduleChars_sub {s : List Nat} {c : Char}
    (hc : c ∈ scheduleChars s) : c.isDigit = true ∨ c = ',' := by
  rcases joinComma_sub hc with h | ⟨p, hp, hcp⟩
  · exact Or.inr h
  · rcases List.mem_map.mp hp with ⟨m, _, rfl⟩
    exact Or.inl (natChars_digits c hcp)

theorem scheduleChars_not_ws {s : List Nat} :
    ∀ c ∈ scheduleChars s, isWS c = false := by
  intro c hc
  rcases scheduleChars_sub hc with h | rfl
  · exact digit_not_ws h
  · decide

theorem scheduleChars_head {s : List Nat} (hs : s ≠ []) :
    ∃ c r, scheduleChars s = c :: r ∧ c.isDigit = true := by
  cases s with
  | nil => exact absurd rfl hs
  | cons n s' =>
    obtain ⟨c, r, hcr, hdig⟩ := natChars_head (n := n)
    cases s' with
    | nil => exact ⟨c, r, by rw [show scheduleChars [n] = natChars n from rfl, hcr], hdig⟩
    | cons n' s'' =>
      refine ⟨c, r ++ ',' :: joinComma ((n' :: s'').map natChars), ?_, hdig⟩
      rw [show scheduleChars (n :: n' :: s'')
          = natChars n ++ ',' :: joinComma ((n' :: s'').map natChars)
        from rfl, hcr]
      rfl

theorem countTabs_replicate (d : Nat) {c : Char} (hc : ¬ c = '\t')
    (r : List Char) :
    countTabs (List.replicate d '\t' ++ c :: r) = d := by
  induction d with
  | zero =>
    show countTabs (c :: r) = 0
    unfold countTabs
    rw [if_neg hc]
  | succ d ih =>
    show countTabs ('\t' :: (List.replicate d '\t' ++ c :: r)) = d + 1
    unfold countTabs
    rw [if_pos rfl, ih]

theorem nodeLine_not_blank {d : Nat} {s : List Nat} (hs : s ≠ []) :
    ¬(startsWithHash (nodeLineChars d s) = true
      ∨ trimChars (nodeLineChars d s) = []) := by
  obtain ⟨c, r, hcr, hdig⟩ := scheduleChars_head hs
  intro h
  rcases h with h | h
  · unfold nodeLineChars at h
    cases d with
    | zero =>
      rw [show List.replicate 0 '\t' ++ scheduleChars s = scheduleChars s
        from rfl, hcr] at h
      rw [show startsWithHash (c :: r) = (c == '#') from rfl] at h
      exact absurd (by simpa using h) (digit_ne hdig (by decide))
    | succ d' =>
      rw [show List.replicate (d' + 1) '\t' ++ scheduleChars s
          = '\t' :: (List.replicate d' '\t' ++ scheduleChars s) from rfl] at h
      rw [show startsWithHash
          ('\t' :: (List.replicate d' '\t' ++ scheduleChars s))
          = ('\t' == '#') from rfl] at h
      cases h
  · have hmem : c ∈ nodeLineChars d s := by
      unfold nodeLineChars
      rw [hcr]
      exact List.mem_append.mpr (Or.inr (List.mem_cons_self _ _))
    exact trimChars_ne_nil hmem (digit_not_ws hdig) h

theorem nodeLine_content {d : Nat} {s : List Nat} :
    trimChars ((nodeLineChars d s).drop (countTabs (nodeLineChars d s)))
      = scheduleChars s := by
  rcases hsc : scheduleChars s with _ | ⟨c, r⟩
  · unfold nodeLineChars
    rw [hsc, List.append_nil]
    have htabs : countTabs (List.replicate d '\t') = d := by
      induction d with
      | zero => rfl
      | succ d' ih =>
        show countTabs ('\t' :: List.replicate d' '\t') = d' + 1
        unfold countTabs
        rw [if_pos rfl, ih]
    rw [htabs, List.drop_replicate, Nat.sub_self]
    rfl
  · have hdig : c.isDigit = true := by
      have hs : s ≠ [] := fun h => by rw [h] at hsc; cases hsc
      obtain ⟨c', r', hcr', hdig'⟩ := scheduleChars_head hs
      rw [hsc] at hcr'
      cases hcr'
      exact hdig'
    unfold nodeLineChars
    rw [hsc, countTabs_replicate d (digit_ne hdig (by decide)) r]
    rw [show (List.replicate d '\t' ++ c :: r).drop d = c :: r from by
      have hdl := List.drop_left (List.replicate d '\t') (c :: r)
      rwa [List.length_replicate] at hdl]
    rw [← hsc]
    exact trimChars_eq_self (scheduleChars_not_ws (s := s))

theorem scheduleChars_not_marker {s : List Nat} (hs : s ≠ []) :
    ¬(scheduleChars s = ['…'] ∨ scheduleChars s = ['✅']
      ∨ scheduleChars s = []) := by
  obtain ⟨c, r, hcr, hdig⟩ := scheduleChars_head hs
  intro h
  rcases h with h | h | h <;> rw [hcr] at h
  · cases h
    exact absurd hdig (by decide)
  · cases h
    exact absurd hdig (by decide)
  · cases h

theorem countTabs_nodeLine {d : Nat} {s : List Nat} (hs : s ≠ []) :
    countTabs (nodeLineChars d s) = d := by
  obtain ⟨c, r, hcr, hdig⟩ := scheduleChars_head hs
  unfold nodeLineChars
  rw [hcr]
  exact countTabs_replicate d (digit_ne hdig (by decide)) r

theorem readerStep_node {W d : Nat} {s : List Nat} (hs : s ≠ [])
    (st : ReaderState) :
    readerStep W st (nodeLineChars d s)
      = ⟨st.stack.take d ++ [castS s],
         if (st.stack.take d ++ [castS s]).length = W
           then st.out ++ [st.stack.take d ++ [castS s]] else st.out,
         st.warned, st.warnCount⟩ := by
  unfold readerStep
  rw [if_neg (nodeLine_not_blank hs)]
  simp only
  rw [nodeLine_content, countTabs_nodeLine hs,
    if_neg (scheduleChars_not_marker hs), parseSchedule_scheduleChars hs]

theorem readerStep_header (W teams weeks count : Nat) (st : ReaderState) :
    readerStep W st (headerChars teams weeks count) = st := by
  have h : startsWithHash (headerChars teams weeks count) = true := rfl
  unfold readerStep
  rw [if_pos (Or.inl h)]

theorem commonDepth_take (a : List (List Nat)) :
    ∀ b, a.take (commonDepth a b) = b.take (commonDepth a b) := by
  induction a with
  | nil => intro b; cases b <;> rfl
  | cons x xs ih =>
    intro b
    cases b with
    | nil => rfl
    | cons y ys =>
      rw [show commonDepth (x :: xs) (y :: ys)
          = if x = y then commonDepth xs ys + 1 else 0 from rfl]
      by_cases h : x = y
      · rw [if_pos h, List.take_succ_cons, List.take_succ_cons, ih ys, h]
      · rw [if_neg h]
        rfl

theorem commonDepth_lt (a : List (List Nat)) :
    ∀ b, a.length = b.length → a ≠ b → commonDepth a b < b.length := by
  induction a with
  | nil =>
    intro b hlen hne
    cases b with
    | nil => exact absurd rfl hne
    | cons y ys => simp at hlen
  | cons x xs ih =>
    intro b hlen hne
    cases b with
    | nil => simp at hlen
    | cons y ys =>
      rw [show commonDepth (x :: xs) (y :: ys)
          = if x = y then commonDepth xs ys + 1 else 0 from rfl]
      by_cases h : x = y
      · rw [if_pos h]
        have hxy : xs ≠ ys := fun he => hne (by rw [h, he])
        have hlt := ih ys (by simpa using hlen) hxy
        simp only [List.length_cons]
        omega
      · rw [if_neg h]
        simp only [List.length_cons]
        omega

theorem take_succ_getD {α : Type} (l : List α) (d : Nat) (x : α)
    (h : d < l.length) : l.take (d + 1) = l.take d ++ [l.getD d x] := by
  rw [List.take_succ, List.getD_eq_getElem?_getD, List.getElem?_eq_getElem h]
  rfl

theorem castPath_getD {p : List (List Nat)} {d : Nat} (h : d < p.length) :
    (castPath p).getD d [] = castS (p.getD d []) := by
  unfold castPath
  rw [List.getD_eq_getElem?_getD, List.getElem?_map,
    List.getElem?_eq_getElem h, List.getD_eq_getElem?_getD,
    List.getElem?_eq_getElem h]
  rfl

theorem castPath_length (p : List (List Nat)) :
    (castPath p).length = p.length := by
  unfold castPath
  rw [List.length_map]

/-- The lines `writePath` emits for one path: one per depth past the common
prefix with the previous path. -/
def pathSuffixLines (prev path : List (List Nat)) : List (List Char) :=
  (List.range' (commonDepth prev path) (path.length - commonDepth prev path)).map
    (fun d => nodeLineChars d (path.getD d []))

theorem writePath_eq (st : List (List Nat) × List (List Char))
    (q : List (List Nat)) :
    writePath st q = (q, st.2 ++ pathSuffixLines st.1 q) := rfl

theorem writePath_acc (qs : List (List (List Nat))) :
    ∀ (prev : List (List Nat)) (acc : List (List Char)),
      qs.foldl writePath (prev, acc)
        = ((qs.foldl writePath (prev, [])).1,
           acc ++ (qs.foldl writePath (prev, [])).2) := by
  induction qs with
  | nil =>
    intro prev acc
    show (prev, acc) = (prev, acc ++ [])
    rw [List.append_nil]
  | cons q qs ih =>
    intro prev acc
    rw [List.foldl_cons, List.foldl_cons, writePath_eq (prev, acc) q,
      writePath_eq (prev, []) q]
    dsimp only
    rw [List.nil_append, ih q (acc ++ pathSuffixLines prev q),
      ih q (pathSuffixLines prev q)]
    dsimp only
    rw [List.append_assoc]

theorem reader_lines_range {W : Nat} {p : List (List Nat)} (hp : p.length = W)
    (hne : ∀ s ∈ p, s ≠ []) :
    ∀ (cnt d : Nat) (st : ReaderState), d + cnt = W → 0 < cnt →
      st.stack.take d = (castPath p).take d →
      ((List.range' d cnt).map (fun i => nodeLineChars i (p.getD i []))).foldl
        (readerStep W) st
        = ⟨castPath p, st.out ++ [castPath p], st.warned, st.warnCount⟩ := by
  intro cnt
  induction cnt with
  | zero => intro d st h0 h1 _; exact absurd h1 (by omega)
  | succ k ih =>
    intro d st hdW _ hstack
    rw [List.range'_succ, List.map_cons, List.foldl_cons]
    have hdlt : d < p.length := by omega
    have hgd : p.getD d [] = p[d] := by
      rw [List.getD_eq_getElem?_getD, List.getElem?_eq_getElem hdlt]
      rfl
    have hsne : p.getD d [] ≠ [] := by
      rw [hgd]
      exact hne _ (List.getElem_mem _)
    rw [readerStep_node hsne st]
    have hstack1 : st.stack.take d ++ [castS (p.getD d [])]
        = (castPath p).take (d + 1) := by
      rw [hstack, ← castPath_getD hdlt,
        ← take_succ_getD (castPath p) d [] (by rw [castPath_length]; omega)]
    have hlen1 : ((castPath p).take (d + 1)).length = d + 1 := by
      rw [List.length_take, castPath_length]
      omega
    rcases Nat.eq_zero_or_pos k with hk0 | hkpos
    · subst hk0
      rw [show List.range' (d + 1) 0 = ([] : List Nat) from rfl,
        List.map_nil, List.foldl_nil, hstack1,
        if_pos (by rw [hlen1]; omega)]
      have htake : (castPath p).take (d + 1) = castPath p :=
        List.take_of_length_le (by rw [castPath_length]; omega)
      rw [htake]
    · have hne1 : ¬ (st.stack.take d ++ [castS (p.getD d [])]).length = W := by
        rw [hstack1, hlen1]
        omega
      rw [if_neg hne1, hstack1]
      exact ih (d + 1)
        ⟨(castPath p).take (d + 1), st.out, st.warned, st.warnCount⟩
        (by omega) hkpos
        (by
          show ((castPath p).take (d + 1)).take (d + 1)
            = (castPath p).take (d + 1)
          rw [List.take_take, min_self])

theorem reader_writer_fold {W : Nat} (hW : 0 < W)
    (ps : List (List (List Nat))) :
    ∀ (prev : List (List Nat)) (st : ReaderState),
      (∀ p ∈ ps, p.length = W) → (∀ p ∈ ps, ∀ s ∈ p, s ≠ []) →
      List.Chain' (fun a b => a ≠ b) (prev :: ps) →
      (prev = [] ∨ prev.length = W) →
      st.stack = castPath prev →
      ((ps.foldl writePath (prev, [])).2).foldl (readerStep W) st
        = ⟨castPath (ps.getLastD prev), st.out ++ ps.map castPath,
           st.warned, st.warnCount⟩ := by
  induction ps with
  | nil =>
    intro prev st _ _ _ _ hstack
    show st = ⟨castPath prev, st.out ++ List.map castPath [], st.warned,
      st.warnCount⟩
    rw [List.map_nil, List.append_nil, ← hstack]
  | cons p qs ih =>
    intro prev st hlen hne hch hprev hstack
    have hplen : p.length = W := hlen p (List.mem_cons_self _ _)
    have hcd : commonDepth prev p < W := by
      rcases hprev with rfl | hpl
      · have h0 : commonDepth ([] : List (List Nat)) p = 0 := by
          cases p <;> rfl
        omega
      · have hnepv : prev ≠ p := (List.chain'_cons.mp hch).1
        have := commonDepth_lt prev p (by omega) hnepv
        omega
    rw [List.foldl_cons, writePath_eq (prev, []) p]
    dsimp only
    rw [List.nil_append, writePath_acc qs p (pathSuffixLines prev p)]
    dsimp only
    rw [List.foldl_append]
    have hstack0 : st.stack.take (commonDepth prev p)
        = (castPath p).take (commonDepth prev p) := by
      rw [hstack]
      unfold castPath
      rw [← List.map_take, ← List.map_take, commonDepth_take prev p]
    have hstep := reader_lines_range hplen (hne p (List.mem_cons_self _ _))
      (p.length - commonDepth prev p) (commonDepth prev p) st
      (by omega) (by omega) hstack0
    rw [show pathSuffixLines prev p
        = (List.range' (commonDepth prev p)
            (p.length - commonDepth prev p)).map
          (fun i => nodeLineChars i (p.getD i [])) from rfl, hstep]
    rw [List.getLastD_cons, List.map_cons,
      List.append_cons st.out (castPath p) (List.map castPath qs)]
    exact ih p ⟨castPath p, st.out ++ [castPath p], st.warned, st.warnCount⟩
      (fun q hq => hlen q (List.mem_cons_of_mem _ hq))
      (fun q hq => hne q (List.mem_cons_of_mem _ hq))
      hch.tail (Or.inr hplen) rfl

theorem isPrefixOf_append_self (l r : List Char) :
    l.isPrefixOf (l ++ r) = true := by
  induction l with
  | nil => cases r <;> rfl
  | cons c q ih =>
    show (c == c && q.isPrefixOf (q ++ r)) = true
    rw [ih, beq_self_eq_true]
    rfl

theorem matchKeyNum_cons_ne {k : Char} {key : List Char} {c : Char}
    (hc : ¬ c = k) (l : List Char) :
    matchKeyNum (k :: key) (c :: l) = matchKeyNum (k :: key) l := by
  rw [show matchKeyNum (k :: key) (c :: l)
      = if (k :: key).isPrefixOf (c :: l)
            && !(digitsPrefix ((c :: l).drop (k :: key).length)).isEmpty
        then some (digitsVal (digitsPrefix ((c :: l).drop (k :: key).length)))
        else matchKeyNum (k :: key) l from rfl]
  rw [if_neg]
  intro h
  rw [Bool.and_eq_true] at h
  have hp := h.1
  rw [show (k :: key).isPrefixOf (c :: l)
      = (k == c && key.isPrefixOf l) from rfl, Bool.and_eq_true] at hp
  exact hc (beq_iff_eq.mp hp.1).symm

theorem matchKeyNum_append {k : Char} {key : List Char} {l : List Char}
    (h : ∀ c ∈ l, ¬ c = k) (r : List Char) :
    matchKeyNum (k :: key) (l ++ r) = matchKeyNum (k :: key) r := by
  induction l with
  | nil => rfl
  | cons c q ih =>
    rw [List.cons_append, matchKeyNum_cons_ne (h c (List.mem_cons_self _ _)),
      ih (fun x hx => h x (List.mem_cons_of_mem _ hx))]

theorem matchKeyNum_found (k : Char) (key r : List Char)
    (hr : (digitsPrefix r).isEmpty = false) :
    matchKeyNum (k :: key) ((k :: key) ++ r)
      = some (digitsVal (digitsPrefix r)) := by
  have hdrop : ((k :: key) ++ r).drop (k :: key).length = r :=
    List.drop_left _ _
  rw [show matchKeyNum (k :: key) ((k :: key) ++ r)
      = if (k :: key).isPrefixOf ((k :: key) ++ r)
            && !(digitsPrefix (((k :: key) ++ r).drop (k :: key).length)).isEmpty
        then some (digitsVal
          (digitsPrefix (((k :: key) ++ r).drop (k :: key).length)))
        else matchKeyNum (k :: key) (key ++ r) from rfl, hdrop]
  have hcond : ((k :: key).isPrefixOf ((k :: key) ++ r)
      && !(digitsPrefix r).isEmpty) = true := by
    rw [isPrefixOf_append_self, hr]
    rfl
  rw [if_pos hcond]

theorem natChars_not_isEmpty {n : Nat} : (natChars n).isEmpty = false := by
  rcases hl : natChars n with _ | ⟨c, r⟩
  · exact absurd hl natChars_ne_nil
  · rfl

theorem parseHeader_weeks (teams weeks count : Nat) :
    (parseHeader (headerChars teams weeks count)).weeks = weeks := by
  have hkey : ("weeks=".data : List Char) = 'w' :: "eeks=".data := rfl
  have hre : headerChars teams weeks count
      = ("# teams=".data ++ natChars teams ++ [' '])
        ++ ("weeks=".data ++ (natChars weeks
          ++ (" count=".data ++ padEndChars (natChars count
            ++ " (partial)".data) 23))) := by
    unfold headerChars
    rw [show (" weeks=".data : List Char) = [' '] ++ "weeks=".data from rfl]
    simp [List.append_assoc]
  have hskip : ∀ c ∈ ("# teams=".data ++ natChars teams ++ [' ']),
      ¬ c = 'w' := by
    intro c hc
    rcases List.mem_append.mp hc with h1 | h1
    · rcases List.mem_append.mp h1 with h2 | h2
      · rw [show ("# teams=".data : List Char)
            = ['#', ' ', 't', 'e', 'a', 'm', 's', '='] from rfl] at h2
        simp only [List.mem_cons, List.not_mem_nil, or_false] at h2
        rcases h2 with rfl | rfl | rfl | rfl | rfl | rfl | rfl | rfl <;> decide
      · exact digit_ne (natChars_digits c h2) (by decide)
    · rcases List.mem_singleton.mp h1 with rfl
      decide
  have hdig0 : digitsPrefix (" count=".data
      ++ padEndChars (natChars count ++ " (partial)".data) 23) = [] := rfl
  have hmain : matchKeyNum "weeks=".data (headerChars teams weeks count)
      = some weeks := by
    rw [hre, hkey, matchKeyNum_append hskip]
    rw [matchKeyNum_found 'w' "eeks=".data _ ?_]
    · rw [digitsPrefix_all_append (fun c hc => natChars_digits c hc), hdig0,
        List.append_nil, natChars_val]
    · rw [digitsPrefix_all_append (fun c hc => natChars_digits c hc), hdig0,
        List.append_nil]
      exact natChars_not_isEmpty
  show (matchKeyNum "weeks=".data (headerChars teams weeks count)).getD 0
    = weeks
  rw [hmain]
  rfl

/-- C7: writing a collection of equal-depth paths through the tree writer
(`writeHeader`, then `writePath` for each path in order, with its prefix
compression against the previous path) and reading the stream back with
`TreeReader.paths` yields exactly the original paths — here proved in
order, which is stronger than the claimed order-insensitive set equality,
and covers both all-distinct paths and paths sharing long common
prefixes. -/
theorem claim_C7_tree_roundtrip (teams weeks : Nat) (hW : 0 < weeks)
    (paths : List (List (List Nat)))
    (hlen : ∀ p ∈ paths, p.length = weeks)
    (hne : ∀ p ∈ paths, ∀ s ∈ p, s ≠ [])
    (hnodup : paths.Nodup) :
    treeReaderPaths (writtenFile teams weeks paths)
      = paths.map castPath := by
  unfold treeReaderPaths writtenFile readerRun
  rw [show (headerChars teams weeks 0
      :: (paths.foldl writePath ([], [])).2).headD [] =
      headerChars teams weeks 0 from rfl,
    parseHeader_weeks, List.foldl_cons, readerStep_header]
  have hch : List.Chain' (fun a b => a ≠ b)
      (([] : List (List Nat)) :: paths) := by
    rw [List.chain'_cons']
    refine ⟨?_, hnodup.chain'⟩
    intro b hb heq
    have hbp : b ∈ paths := List.mem_of_mem_head? hb
    have hlb := hlen b hbp
    rw [← heq] at hlb
    simp at hlb
    omega
  have hrun := reader_writer_fold hW paths [] ⟨[], [], false, 0⟩ hlen hne hch
    (Or.inl rfl) rfl
  rw [hrun]
  exact List.nil_append _

/-- Witness for C7: two 2-week paths sharing their first week round-trip
through the writer and reader. -/
theorem claim_C7_witness :
    treeReaderPaths (writtenFile 4 2 [[[0, 1], [2, 3]], [[0, 1], [4, 5]]])
      = [[[0, 1], [2, 3]], [[0, 1], [4, 5]]].map castPath :=
  claim_C7_tree_roundtrip 4 2 (by decide) _ (by decide) (by decide) (by decide)

instance instDecidableLineInvalid (l : List Char) :
    Decidable (LineInvalid l) := by
  unfold LineInvalid
  infer_instance

theorem readerStep_invalid {l : List Char} (h : LineInvalid l) (W : Nat)
    (st : ReaderState) :
    readerStep W st l
      = if st.warned then st
        else ⟨st.stack, st.out, true, st.warnCount + 1⟩ := by
  obtain ⟨h1, h2, h3⟩ := h
  unfold readerStep
  simp only
  rw [if_neg h1, if_neg h2, h3]

theorem readerStep_congr (W : Nat) (st st' : ReaderState) (l : List Char)
    (hs : st.stack = st'.stack) (ho : st.out = st'.out) :
    (readerStep W st l).stack = (readerStep W st' l).stack ∧
    (readerStep W st l).out = (readerStep W st' l).out := by
  unfold readerStep
  simp only
  by_cases h1 : startsWithHash l = true ∨ trimChars l = []
  · rw [if_pos h1, if_pos h1]
    exact ⟨hs, ho⟩
  · rw [if_neg h1, if_neg h1]
    by_cases h2 : trimChars (l.drop (countTabs l)) = ['…']
        ∨ trimChars (l.drop (countTabs l)) = ['✅']
        ∨ trimChars (l.drop (countTabs l)) = []
    · rw [if_pos h2, if_pos h2]
      exact ⟨hs, ho⟩
    · rw [if_neg h2, if_neg h2]
      rcases hp : parseSchedule (trimChars (l.drop (countTabs l)))
        with _ | sched
      · constructor <;>
          by_cases hw : st.warned <;> by_cases hw' : st'.warned <;>
          simp [hw, hw', hs, ho]
      · rw [hs, ho]
        exact ⟨rfl, rfl⟩

theorem readerStep_warnCount (W : Nat) (st : ReaderState) (l : List Char) :
    ((readerStep W st l).warned = st.warned
      ∧ (readerStep W st l).warnCount = st.warnCount)
    ∨ (st.warned = false ∧ (readerStep W st l).warned = true
      ∧ (readerStep W st l).warnCount = st.warnCount + 1) := by
  unfold readerStep
  simp only
  by_cases h1 : startsWithHash l = true ∨ trimChars l = []
  · rw [if_pos h1]
    exact Or.inl ⟨rfl, rfl⟩
  · rw [if_neg h1]
    by_cases h2 : trimChars (l.drop (countTabs l)) = ['…']
        ∨ trimChars (l.drop (countTabs l)) = ['✅']
        ∨ trimChars (l.drop (countTabs l)) = []
    · rw [if_pos h2]
      exact Or.inl ⟨rfl, rfl⟩
    · rw [if_neg h2]
      rcases hp : parseSchedule (trimChars (l.drop (countTabs l)))
        with _ | sched
      · by_cases hw : st.warned
        · rw [if_pos hw]
          exact Or.inl ⟨rfl, rfl⟩
        · rw [if_neg hw]
          refine Or.inr ⟨?_, rfl, rfl⟩
          rw [Bool.not_eq_true] at hw
          exact hw
      · exact Or.inl ⟨rfl, rfl⟩

theorem readerRun_warnCount (W : Nat) (lines : List (List Char)) :
    ∀ st : ReaderState,
      (st.warned = false → st.warnCount = 0) → st.warnCount ≤ 1 →
      (lines.foldl (readerStep W) st).warnCount ≤ 1 := by
  induction lines with
  | nil =>
    intro st _ h1
    exact h1
  | cons l ls ih =>
    intro st h0 h1
    rw [List.foldl_cons]
    refine ih _ ?_ ?_
    · intro hwf
      rcases readerStep_warnCount W st l with ⟨hw, hc⟩ | ⟨_, hw, _⟩
      · rw [hw] at hwf
        rw [hc]
        exact h0 hwf
      · rw [hw] at hwf
        cases hwf
    · rcases readerStep_warnCount W st l with ⟨_, hc⟩ | ⟨hw0, _, hc⟩
      · rw [hc]
        exact h1
      · rw [hc, h0 hw0]

theorem readerRun_filter_invalid (W : Nat) (lines : List (List Char)) :
    ∀ st st' : ReaderState, st.stack = st'.stack → st.out = st'.out →
      ((lines.foldl (readerStep W) st).stack
        = ((lines.filter fun l => !decide (LineInvalid l)).foldl
            (readerStep W) st').stack) ∧
      ((lines.foldl (readerStep W) st).out
        = ((lines.filter fun l => !decide (LineInvalid l)).foldl
            (readerStep W) st').out) := by
  induction lines with
  | nil =>
    intro st st' hs ho
    exact ⟨hs, ho⟩
  | cons l ls ih =>
    intro st st' hs ho
    rw [List.foldl_cons, List.filter_cons]
    by_cases hinv : LineInvalid l
    · rw [if_neg (by simp [hinv])]
      have hstep := readerStep_invalid hinv W st
      refine ih (readerStep W st l) st' ?_ ?_
      · rw [hstep]
        by_cases hw : st.warned
        · rw [if_pos hw]
          exact hs
        · rw [if_neg hw]
          exact hs
      · rw [hstep]
        by_cases hw : st.warned
        · rw [if_pos hw]
          exact ho
        · rw [if_neg hw]
          exact ho
    · rw [if_pos (by simp [hinv])]
      rw [List.foldl_cons]
      obtain ⟨hcs, hco⟩ := readerStep_congr W st st' l hs ho
      exact ih _ _ hcs hco

/-- C9: the reader never aborts on a malformed schedule line: over any
input stream the warning fires at most once per file (not once per bad
line), and the depth stack and yielded paths of the scan are exactly those
of the same stream with the invalid lines removed — a malformed line is
skipped and treated as absent, never fatal. -/
theorem claim_C9_malformed_line_skipped (W : Nat) (lines : List (List Char)) :
    (readerRun W lines).warnCount ≤ 1 ∧
    (readerRun W lines).out
      = (readerRun W (lines.filter fun l => !decide (LineInvalid l))).out ∧
    (readerRun W lines).stack
      = (readerRun W (lines.filter fun l => !decide (LineInvalid l))).stack := by
  unfold readerRun
  obtain ⟨hst, hout⟩ := readerRun_filter_invalid W lines
    ⟨[], [], false, 0⟩ ⟨[], [], false, 0⟩ rfl rfl
  exact ⟨readerRun_warnCount W lines ⟨[], [], false, 0⟩ (fun _ => rfl)
    (Nat.zero_le 1), hout, hst⟩
